import Mathlib

/-!
# Verification of the hardlink-deduplicator Files Index

A shallow embedding of the core of the `hardlink-deduplicator` repository
(`src/src/lib/files_index.rs`, `src/src/lib/fs.rs`), together with proofs and
refutations of the frozen specification claims.

Modelling conventions:

* Paths and file contents are byte lists (`List Nat`); a byte is well-formed
  when `< 256`.  Rust `HashMap`s become association lists with first-match
  lookup and replace-in-place insertion; Rust `HashSet<usize>` buckets become
  strictly sorted duplicate-free `List Nat`, iterated in ascending order (the
  source iterates hash sets in an unspecified order).
* Machine integers (`u64`, `u128`) are modelled as `Nat`; no arithmetic in the
  modelled code can overflow them on the inputs considered.
* Fallible Rust code returns `Except Err`; a Rust `panic!` / failed `assert!`
  is the `Err.panicked` error value.  Functions that take `&mut` receivers
  return the mutated state even when they also return an error, matching the
  fact that mutations before an early `?`-return persist in the caller.
* The filesystem abstraction is instantiated at the in-memory test variant
  (`TestFs` in `src/src/lib/fs.rs`), extended with the `read_only` flag that
  makes every mutator fail exactly like `ReadOnlyFs`, and with a ghost
  `mut_log` recording every mutator invocation, used to state frame claims.
-/

set_option autoImplicit false

deriving instance DecidableEq for Except

namespace HardlinkDedup

/-- Error type, from `src/src/lib/mod.rs` (variants `Generic`/`IO`) plus the
`ReadOnlyFs` error constructed in `src/src/lib/fs.rs`; `panicked` stands for a
Rust `panic!`/failed `assert!`, and `codec` for a CSV deserialization error. -/
inductive Err where
  | notFound : Err
  | invalidInput : Err
  | dstExists : Err
  | readOnlyFs : Err
  | panicked : Err
  | codec : Err
  deriving DecidableEq, Repr

/-- First-match lookup in an association list (Rust `HashMap::get`). -/
def alookup {κ β : Type} [DecidableEq κ] : List (κ × β) → κ → Option β
  | [], _ => none
  | (k, v) :: rest, k' => if k' = k then some v else alookup rest k'

/-- Insert-or-replace in an association list (Rust `HashMap::insert`):
replaces the value at the first occurrence of the key, else appends. -/
def ainsert {κ β : Type} [DecidableEq κ] : List (κ × β) → κ → β → List (κ × β)
  | [], k', v' => [(k', v')]
  | (k, v) :: rest, k', v' =>
    if k' = k then (k, v') :: rest else (k, v) :: ainsert rest k' v'

/-- Remove a key from an association list (Rust `HashMap::remove`). -/
def aerase {κ β : Type} [DecidableEq κ] : List (κ × β) → κ → List (κ × β)
  | [], _ => []
  | (k, v) :: rest, k' => if k' = k then rest else (k, v) :: aerase rest k'

/-- Sorted insertion without duplicates: the model of `HashSet::insert` on a
bucket of slot ids, with ascending order as the canonical iteration order. -/
def binsert : List Nat → Nat → List Nat
  | [], v => [v]
  | x :: xs, v =>
    if v < x then v :: x :: xs else if v = x then x :: xs else x :: binsert xs v

/-- `HashSet::remove` on a bucket. -/
def berase (b : List Nat) (v : Nat) : List Nat := b.erase v

/-! ## The content digest

`src/src/lib/fast_hash.rs` is not under `src/` (only its callers are). -/

/-- One `Hasher::write` step of the streaming digest, folding a buffer of
bytes into the hasher state. -/
def hashWrite (state : Nat) (buf : List Nat) : Nat :=
  buf.foldl (fun a b => a * 256 + b % 256) state

/-- Modelled from the spec: `hash_file` (in the missing
`src/src/lib/fast_hash.rs`) computes "a 128-bit non-cryptographic content
digest" of a file's entire byte content in one streaming pass (§4.2), and §3
fixes the digest's contract: "two FEs sharing (size, fast_hash) where both are
present must describe byte-identical files".  The model realises that contract
with a base-256 fold, which is collision-free on byte strings of equal length;
streaming is the same fold, so hashing chunk by chunk agrees with hashing the
concatenation. -/
def fastHash (content : List Nat) : Nat :=
  hashWrite 0 content

/-! ## Paths

Paths are byte lists; `47` is `'/'`.  The admission pipeline only manipulates
paths through `canonicalize`, prefix stripping, joining and the `.backup`
file-name suffixing below, matching the `std::path` operations the source
performs on the flat names the walker produces. -/

/-- `Path::has_root`. -/
def hasRoot (p : List Nat) : Bool := p.headD 0 = 47

/-- `PathBuf::join` / `push`: appends, inserting a `/` separator unless the
left side already ends with one. -/
def joinPath (b p : List Nat) : List Nat :=
  if b.getLastD 0 = 47 then b ++ p else b ++ 47 :: p

/-- `Path::strip_prefix` (string-prefix form; agrees with the component-wise
Rust operation on the `/`-terminated base paths used throughout). -/
def stripPrefix (base p : List Nat) : Option (List Nat) :=
  if base.isPrefixOf p then some (p.drop base.length) else none

/-- `Path::file_name`: the part after the last `/` (total model; identity on
the slash-free names the admission pipeline handles). -/
def fileName (p : List Nat) : List Nat :=
  (p.splitOn 47).getLastD []

/-- `Path::with_file_name`: replace the part after the last `/`. -/
def withFileName (p n : List Nat) : List Nat :=
  List.intercalate [47] ((p.splitOn 47).dropLast ++ [n])

/-- The byte suffix `".backup"`. -/
def backupSuffix : List Nat := [46, 98, 97, 99, 107, 117, 112]

/-- The sidecar file name `".index_file.csv"`. -/
def indexFileName : List Nat :=
  [46, 105, 110, 100, 101, 120, 95, 102, 105, 108, 101, 46, 99, 115, 118]

/-! ## File entries

The `FileEntry` consumed by `src/src/lib/files_index.rs` is not under `src/`
(`src/src/lib/file_entry.rs` holds an earlier, incompatible draft with
optional stats and no `eq_except_hash`/`absolute_path(base)`). -/

/-- Modelled from the spec: the File Entry of §3 — "relative_path, stat_size,
stat_inode, stat_modified/stat_created (plus stat_accessed, §4.6), fast_hash
optional" — with exactly the seven fields, in the column order fixed by §4.6
and by the CSV emitted in the source's `test_write_to_csv`. -/
structure FileEntry where
  relative_path : List Nat
  fast_hash : Option Nat
  stat_size : Nat
  stat_modified : Nat
  stat_accessed : Nat
  stat_created : Nat
  stat_inode : Nat
  deriving DecidableEq, Repr

/-- `FileEntry::absolute_path(&base)` as used throughout `files_index.rs`. -/
def FileEntry.absolute_path (e : FileEntry) (base : List Nat) : List Nat :=
  joinPath base e.relative_path

/-- Modelled from the spec: `eq_except_hash` (missing with the shipped
`FileEntry`) — equality on every field except `fast_hash`, the comparison §3's
lifecycle uses to detect "re-observed with changed stats". -/
def FileEntry.eq_except_hash (a b : FileEntry) : Bool :=
  a.relative_path = b.relative_path ∧ a.stat_size = b.stat_size ∧
    a.stat_modified = b.stat_modified ∧ a.stat_accessed = b.stat_accessed ∧
    a.stat_created = b.stat_created ∧ a.stat_inode = b.stat_inode

/-! ## The filesystem abstraction -/

/-- A recorded mutator invocation (ghost instrumentation: the mutable surface
of the FA, §4.1). -/
inductive MutOp where
  | write_to_file (path : List Nat) : MutOp
  | hard_link (src dst : List Nat) : MutOp
  | remove_file (path : List Nat) : MutOp
  | rename (src dst : List Nat) : MutOp
  deriving DecidableEq, Repr

/-- The in-memory filesystem (`TestFs` in `src/src/lib/fs.rs`): a table of
path → bytes and path → inode plus a current working directory.  The
`read_only` flag instantiates the `ReadOnlyFs` variant (same read behaviour
over the in-memory table, every mutator fails with `Err::ReadOnlyFs`); the
ghost `mut_log` records each mutator invocation. -/
structure TestFs where
  filedata : List (List Nat × List Nat)
  inodes : List (List Nat × Nat)
  cwd : List Nat
  read_only : Bool
  mut_log : List MutOp
  deriving DecidableEq, Repr

namespace TestFs

/-- `AbstractFs::open`: the opened file's byte stream. -/
def openFile (fs : TestFs) (p : List Nat) : Except Err (List Nat) :=
  match alookup fs.filedata p with
  | none => .error .notFound
  | some c => .ok c

/-- `TestFs::canonicalize`: rooted paths unchanged, others joined to `cwd`. -/
def canonicalize (fs : TestFs) (p : List Nat) : List Nat :=
  if hasRoot p then p else joinPath fs.cwd p

/-- `TestFs::metadata`: `(size, modified, accessed, created, inode)`; the
in-memory variant reports `UNIX_EPOCH` (0) for all three timestamps. -/
def metadata (fs : TestFs) (p : List Nat) :
    Except Err (Nat × Nat × Nat × Nat × Nat) :=
  match alookup fs.filedata p, alookup fs.inodes p with
  | some c, some ino => .ok (c.length, 0, 0, 0, ino)
  | _, _ => .error .notFound

/-- `write_to_file`: create-or-truncate (read-only variant fails). -/
def write_to_file (fs : TestFs) (p : List Nat) (buf : List Nat) :
    TestFs × Except Err Unit :=
  let fs := { fs with mut_log := fs.mut_log ++ [.write_to_file p] }
  if fs.read_only then (fs, .error .readOnlyFs)
  else ({ fs with filedata := ainsert fs.filedata p buf }, .ok ())

/-- `hard_link`: fails if `dst` exists; otherwise `dst` gets `src`'s bytes and
inode. -/
def hard_link (fs : TestFs) (src dst : List Nat) : TestFs × Except Err Unit :=
  let fs := { fs with mut_log := fs.mut_log ++ [.hard_link src dst] }
  if fs.read_only then (fs, .error .readOnlyFs)
  else if (alookup fs.filedata dst).isSome then (fs, .error .dstExists)
  else
    match alookup fs.filedata src, alookup fs.inodes src with
    | some c, some ino =>
      ({ fs with filedata := ainsert fs.filedata dst c,
                 inodes := ainsert fs.inodes dst ino }, .ok ())
    | _, _ => (fs, .error .notFound)

/-- `remove_file`: removes the inode entry, then the data entry, failing (and
keeping the mutations made so far) as soon as a lookup misses. -/
def remove_file (fs : TestFs) (p : List Nat) : TestFs × Except Err Unit :=
  let fs := { fs with mut_log := fs.mut_log ++ [.remove_file p] }
  if fs.read_only then (fs, .error .readOnlyFs)
  else
    match alookup fs.inodes p with
    | none => (fs, .error .notFound)
    | some _ =>
      let fs := { fs with inodes := aerase fs.inodes p }
      match alookup fs.filedata p with
      | none => (fs, .error .notFound)
      | some _ => ({ fs with filedata := aerase fs.filedata p }, .ok ())

/-- `rename`: looks the source up, removes any file at the destination, then
removes the source and inserts the destination — performing the source's
sequence of table operations, including its mid-way failures (which keep the
mutations made before the failing step). -/
def rename (fs : TestFs) (src dst : List Nat) : TestFs × Except Err Unit :=
  let fs := { fs with mut_log := fs.mut_log ++ [.rename src dst] }
  if fs.read_only then (fs, .error .readOnlyFs)
  else
    match alookup fs.filedata src with
    | none => (fs, .error .notFound)
    | some c =>
      match alookup fs.inodes src with
      | none => (fs, .error .notFound)
      | some ino =>
        let step2 : TestFs × Except Err Unit :=
          if (alookup fs.filedata dst).isSome then
            match alookup fs.inodes dst with
            | none => (fs, .error .notFound)
            | some _ =>
              ({ fs with inodes := aerase fs.inodes dst,
                          filedata := aerase fs.filedata dst }, .ok ())
          else (fs, .ok ())
        match step2 with
        | (fs, .error e) => (fs, .error e)
        | (fs, .ok ()) =>
          match alookup fs.inodes src with
          | none => (fs, .error .notFound)
          | some _ =>
            let fs := { fs with inodes := aerase fs.inodes src }
            match alookup fs.filedata src with
            | none => (fs, .error .notFound)
            | some _ =>
              ({ fs with
                  filedata := ainsert (aerase fs.filedata src) dst c,
                  inodes := ainsert fs.inodes dst ino }, .ok ())

end TestFs

/-- Modelled from the spec: `FileEntry::new(fs, base_path, path)` (missing
with the shipped `FileEntry`) — §4.3 step 1 "build a tentative FE via FA":
canonicalize, make relative to the base, stat; `fast_hash` starts absent. -/
def FileEntry.new (fs : TestFs) (base p : List Nat) : Except Err FileEntry :=
  let abs := fs.canonicalize p
  match stripPrefix base abs with
  | none => .error .invalidInput
  | some rel =>
    match fs.metadata abs with
    | .error e => .error e
    | .ok (size, m, a, c, ino) =>
      .ok ⟨rel, none, size, m, a, c, ino⟩

/-- Modelled from the spec: `hash_file` from the missing
`src/src/lib/fast_hash.rs` — one standalone streaming digest pass over the
file (§4.3 case 5). -/
def hash_file (fs : TestFs) (p : List Nat) : Except Err Nat :=
  match fs.openFile p with
  | .error e => .error e
  | .ok c => .ok (fastHash c)

/-! ## The Files Index (`src/src/lib/files_index.rs`) -/

/-- `FilesIndex`: the `entries` sequence plus the six secondary maps
(`files_index.rs`, lines 36-46). -/
structure FilesIndex where
  base_path : List Nat
  entries : List FileEntry
  by_relative_path : List (List Nat × Nat)
  by_size : List (Nat × List Nat)
  by_inode : List (Nat × List Nat)
  by_hash : List (Nat × List Nat)
  inode_by_size : List (Nat × List Nat)
  inode_by_hash : List (Nat × List Nat)
  deriving DecidableEq, Repr

namespace FilesIndex

/-- `FilesIndex::new`: empty index for a base path. -/
def new (base_path : List Nat) : FilesIndex :=
  ⟨base_path, [], [], [], [], [], [], []⟩

end FilesIndex

/-- `HashMap::entry(k).or_default().insert(v)` on a bucket map. -/
def addToBucket (m : List (Nat × List Nat)) (k v : Nat) : List (Nat × List Nat) :=
  ainsert m k (binsert ((alookup m k).getD []) v)

/-- `HashMap::get_mut(k).unwrap().remove(&v)` on a bucket map; the `unwrap`
of a missing key is a panic. -/
def removeFromBucket (m : List (Nat × List Nat)) (k v : Nat) :
    Except Err (List (Nat × List Nat)) :=
  match alookup m k with
  | none => .error .panicked
  | some b => .ok (ainsert m k (berase b v))

/-- `group_by_with_value_func`: group a list, mapping each element to
`value_func(i, e)` where `i` enumerates the *iterated* collection
(`files_index.rs`, lines 16-26). -/
def group_by_with_value (l : List FileEntry) (key : FileEntry → Nat)
    (val : Nat → FileEntry → Nat) : List (Nat × List Nat) :=
  l.enum.foldl (fun m p => addToBucket m (key p.2) (val p.1 p.2)) []

/-- `group_by`: group slot ids of the iterated collection by a key. -/
def group_by (l : List FileEntry) (key : FileEntry → Nat) :
    List (Nat × List Nat) :=
  group_by_with_value l key (fun i _ => i)

namespace FilesIndex

/-- `FilesIndex::from_entries` (lines 63-90): the bulk constructor.  Note the
source builds `by_hash` and `inode_by_hash` by grouping the iterator
*filtered* to hashed entries, so the slot ids entering `by_hash` enumerate the
filtered sequence, not `entries`. -/
def from_entries (base_path : List Nat) (entries : List FileEntry) : FilesIndex where
  base_path := base_path
  entries := entries
  by_relative_path := entries.enum.foldl (fun m p => ainsert m p.2.relative_path p.1) []
  by_size := group_by entries (fun e => e.stat_size)
  by_inode := group_by entries (fun e => e.stat_inode)
  by_hash := group_by (entries.filter (fun e => e.fast_hash.isSome))
    (fun e => e.fast_hash.getD 0)
  inode_by_size := group_by_with_value entries (fun e => e.stat_size)
    (fun _ e => e.stat_inode)
  inode_by_hash := group_by_with_value (entries.filter (fun e => e.fast_hash.isSome))
    (fun e => e.fast_hash.getD 0) (fun _ e => e.stat_inode)

/-- `HashMap::get(k).unwrap().contains(&v)` as the audit performs it: a
missing key is a panic, i.e. the audit does not pass. -/
def bucketContains (m : List (Nat × List Nat)) (k v : Nat) : Bool :=
  match alookup m k with
  | none => false
  | some b => b.contains v

/-- `FilesIndex::sanity_check` (lines 117-185), as the predicate "the audit
routine runs to completion without a failed assertion" (a failed assertion or
an out-of-bounds slot panics, so the audit does not pass). -/
def sanity_check (fi : FilesIndex) : Bool :=
  -- check starting from the file entries
  (fi.entries.enum.all fun p =>
    decide (alookup fi.by_relative_path p.2.relative_path = some p.1) &&
    bucketContains fi.by_size p.2.stat_size p.1 &&
    bucketContains fi.by_inode p.2.stat_inode p.1 &&
    bucketContains fi.inode_by_size p.2.stat_size p.2.stat_inode &&
    (match p.2.fast_hash with
     | none => true
     | some h =>
       bucketContains fi.by_hash h p.1 &&
       bucketContains fi.inode_by_hash h p.2.stat_inode)) &&
  -- and now check starting from the indexes
  (fi.by_size.all fun kb => kb.2.all fun i =>
    match fi.entries.get? i with
    | none => false
    | some e => decide (e.stat_size = kb.1)) &&
  (fi.by_inode.all fun kb => kb.2.all fun i =>
    match fi.entries.get? i with
    | none => false
    | some e => decide (e.stat_inode = kb.1)) &&
  (fi.by_hash.all fun kb => kb.2.all fun i =>
    match fi.entries.get? i with
    | none => false
    | some e => decide (e.fast_hash = some kb.1)) &&
  -- check that the hashes are consistent: every `by_inode` bucket carries
  -- exactly one distinct `fast_hash` value
  (fi.by_inode.all fun kb =>
    decide (kb.2 ≠ []) &&
    (kb.2.all fun i => kb.2.all fun j =>
      match fi.entries.get? i, fi.entries.get? j with
      | some e, some f => decide (e.fast_hash = f.fast_hash)
      | _, _ => false)) &&
  -- check that things are hashed when they should be
  (fi.by_size.all fun kb =>
    decide (kb.2.length ≤ 1) ||
    (kb.2.all fun i =>
      match fi.entries.get? i with
      | none => false
      | some e => e.fast_hash.isSome))

/-- `FilesIndex::get_by_relative_path` (an out-of-bounds stored slot would
panic in the source; here it yields `none`). -/
def get_by_relative_path (fi : FilesIndex) (p : List Nat) : Option FileEntry :=
  (alookup fi.by_relative_path p).bind fi.entries.get?

/-- `FilesIndex::update_file_entry` (lines 193-226): upsert a `FileEntry`
under its relative path — short-circuiting when nothing useful would change,
otherwise removing the replaced entry from every secondary index, storing the
new entry, and re-inserting; returns the stored entry. -/
def update_file_entry (fi : FilesIndex) (file_entry : FileEntry) :
    Except Err (FilesIndex × FileEntry) :=
  let finish : FilesIndex → Nat → FilesIndex × FileEntry := fun fi idx =>
    -- add to indexes
    let fi := { fi with
      by_relative_path := ainsert fi.by_relative_path file_entry.relative_path idx,
      by_size := addToBucket fi.by_size file_entry.stat_size idx,
      by_inode := addToBucket fi.by_inode file_entry.stat_inode idx,
      inode_by_size :=
        addToBucket fi.inode_by_size file_entry.stat_size file_entry.stat_inode }
    let fi :=
      match file_entry.fast_hash with
      | none => fi
      | some h => { fi with
          by_hash := addToBucket fi.by_hash h idx,
          inode_by_hash := addToBucket fi.inode_by_hash h file_entry.stat_inode }
    (fi, file_entry)
  match alookup fi.by_relative_path file_entry.relative_path with
  | some idx =>
    match fi.entries.get? idx with
    | none => .error .panicked
    | some existing_entry =>
      -- if this wouldn't update anything useful, just short-circuit
      if file_entry.eq_except_hash existing_entry && file_entry.fast_hash.isNone then
        .ok (fi, existing_entry)
      else
        -- new replacement for existing index, remove existing stuff
        match removeFromBucket fi.by_size existing_entry.stat_size idx with
        | .error e => .error e
        | .ok bySize =>
        match removeFromBucket fi.by_inode existing_entry.stat_inode idx with
        | .error e => .error e
        | .ok byInode =>
        match removeFromBucket fi.inode_by_size
          existing_entry.stat_size existing_entry.stat_inode with
        | .error e => .error e
        | .ok inodeBySize =>
        match (match existing_entry.fast_hash with
          | none => Except.ok (fi.by_hash, fi.inode_by_hash)
          | some h0 =>
            match removeFromBucket fi.by_hash h0 idx with
            | .error e => .error e
            | .ok bh =>
              match removeFromBucket fi.inode_by_hash h0 existing_entry.stat_inode with
              | .error e => .error e
              | .ok ibh => Except.ok (bh, ibh)) with
        | .error e => .error e
        | .ok hashMaps =>
          -- and re-insert, because the entry has probably changed
          .ok (finish { fi with
            entries := fi.entries.set idx file_entry,
            by_size := bySize, by_inode := byInode, inode_by_size := inodeBySize,
            by_hash := hashMaps.1, inode_by_hash := hashMaps.2 } idx)
  | none =>
    -- new index
    .ok (finish { fi with entries := fi.entries ++ [file_entry] }
      fi.entries.length)

/-- The loop body of `FilesIndex::compare_files` (lines 358-379): fill both
4 KiB buffers, flag and possibly short-circuit on a mismatch, stop when
stream 1 is exhausted, else feed both hashers and consume.  Structural
recursion on a fuel bound (each pass consumes at least one byte of stream 1,
so any fuel above `c1.length` never runs out). -/
def compareLoop (short_circuit : Bool) :
    Nat → List Nat → List Nat → Nat → Nat → Bool → Bool × Option (Nat × Nat)
  | 0, _, _, _, _, equal => (equal, none)
  | fuel + 1, c1, c2, h1, h2, equal =>
    let buf1 := c1.take 4096
    let buf2 := c2.take 4096
    if buf1 ≠ buf2 ∧ short_circuit = true then (false, none)
    else
      let equal := equal && decide (buf1 = buf2)
      if buf1.isEmpty then (equal, some (h1, h2))
      else
        compareLoop short_circuit fuel (c1.drop 4096) (c2.drop 4096)
          (hashWrite h1 buf1) (hashWrite h2 buf2) equal

/-- The comparison loop entered with enough fuel for stream 1. -/
def compare_chunks (short_circuit : Bool) (c1 c2 : List Nat) (h1 h2 : Nat)
    (equal : Bool) : Bool × Option (Nat × Nat) :=
  compareLoop short_circuit (c1.length + 1) c1 c2 h1 h2 equal

/-- `FilesIndex::compare_files` (lines 347-382): open both entries' absolute
paths and run the dual-stream comparison/digest loop. -/
def compare_files (fs : TestFs) (fi : FilesIndex) (entry1 entry2 : FileEntry)
    (short_circuit : Bool) : Except Err (Bool × Option (Nat × Nat)) := do
  let c1 ← fs.openFile (entry1.absolute_path fi.base_path)
  let c2 ← fs.openFile (entry2.absolute_path fi.base_path)
  .ok (compare_chunks short_circuit c1 c2 0 0 true)

/-- `FilesIndex::hard_link_and_insert` (lines 250-276): the link transaction —
assert the preconditions, rename the new path to its `.backup` sibling,
hard-link the existing path onto the new path, re-stat and assert
hash/size/inode agree with the existing entry, remove the backup, upsert. -/
def hard_link_and_insert (fs : TestFs) (fi : FilesIndex)
    (existing_entry new_entry : FileEntry) :
    TestFs × FilesIndex × Except Err FileEntry :=
  if ¬ (new_entry.stat_size = existing_entry.stat_size ∧
        new_entry.fast_hash = existing_entry.fast_hash ∧
        new_entry.stat_inode ≠ existing_entry.stat_inode) then
    (fs, fi, .error .panicked)
  else
    let backup_abs_path := joinPath fi.base_path
      (withFileName new_entry.relative_path
        (fileName new_entry.relative_path ++ backupSuffix))
    match fs.rename (new_entry.absolute_path fi.base_path) backup_abs_path with
    | (fs, .error e) => (fs, fi, .error e)
    | (fs, .ok _) =>
      match fs.hard_link (existing_entry.absolute_path fi.base_path)
        (new_entry.absolute_path fi.base_path) with
      | (fs, .error e) => (fs, fi, .error e)
      | (fs, .ok _) =>
        match FileEntry.new fs fi.base_path new_entry.relative_path with
        | .error e => (fs, fi, .error e)
        | .ok fresh =>
          let checked_new_entry := { fresh with fast_hash := new_entry.fast_hash }
          if ¬ ((checked_new_entry.fast_hash, checked_new_entry.stat_size,
                 checked_new_entry.stat_inode) =
                (existing_entry.fast_hash, existing_entry.stat_size,
                 existing_entry.stat_inode)) then
            (fs, fi, .error .panicked)
          else
            match fs.remove_file backup_abs_path with
            | (fs, .error e) => (fs, fi, .error e)
            | (fs, .ok _) =>
              match update_file_entry fi checked_new_entry with
              | .error e => (fs, fi, .error e)
              | .ok (fi, stored) => (fs, fi, .ok stored)

/-- The candidate loop of `add_file` case 5 (lines 331-340): iterate the size
bucket, short-circuit-compare against each candidate, link on the first
equality, upsert as distinct when no candidate matches. -/
def try_candidates (fs : TestFs) (fi : FilesIndex) (new_entry : FileEntry) :
    List Nat → TestFs × FilesIndex × Except Err FileEntry
  | [] =>
    -- no matches: this file is unique
    match update_file_entry fi new_entry with
    | .error e => (fs, fi, .error e)
    | .ok (fi, e) => (fs, fi, .ok e)
  | idx :: rest =>
    match fi.entries.get? idx with
    | none => (fs, fi, .error .panicked)
    | some existing_entry =>
      match compare_files fs fi existing_entry new_entry true with
      | .error e => (fs, fi, .error e)
      | .ok (false, _) => try_candidates fs fi new_entry rest
      | .ok (true, _) => hard_link_and_insert fs fi existing_entry new_entry

/-- `FilesIndex::add_file` (lines 278-344): the admission algorithm. -/
def add_file (fs : TestFs) (fi : FilesIndex) (p : List Nat) :
    TestFs × FilesIndex × Except Err FileEntry :=
  match FileEntry.new fs fi.base_path p with
  | .error e => (fs, fi, .error e)
  | .ok new_entry =>
    if (alookup fi.by_inode new_entry.stat_inode).isSome then
      -- this file is already deduplicated into this index
      match update_file_entry fi new_entry with
      | .error e => (fs, fi, .error e)
      | .ok (fi, e) => (fs, fi, .ok e)
    else if ¬ (alookup fi.by_size new_entry.stat_size).isSome then
      -- this file is unique because nothing in the index could match it by length
      match update_file_entry fi new_entry with
      | .error e => (fs, fi, .error e)
      | .ok (fi, e) => (fs, fi, .ok e)
    else
      match (alookup fi.by_size new_entry.stat_size).getD [] with
      | [existing_entry_idx] =>
        match fi.entries.get? existing_entry_idx with
        | none => (fs, fi, .error .panicked)
        | some existing_entry =>
          match compare_files fs fi existing_entry new_entry false with
          | .error e => (fs, fi, .error e)
          | .ok (equal, some (existing_entry_hash, new_entry_hash)) =>
            let updated_existing_entry :=
              { existing_entry with fast_hash := some existing_entry_hash }
            match update_file_entry fi updated_existing_entry with
            | .error e => (fs, fi, .error e)
            | .ok (fi, _) =>
              let new_entry := { new_entry with fast_hash := some new_entry_hash }
              if equal then
                -- they are equal, so this is a duplicate file
                hard_link_and_insert fs fi updated_existing_entry new_entry
              else
                -- it's a non-duplicate, so just insert it
                match update_file_entry fi new_entry with
                | .error e => (fs, fi, .error e)
                | .ok (fi, e) => (fs, fi, .ok e)
          -- we told compare_files not to short-circuit: `unreachable!()`
          | .ok (_, none) => (fs, fi, .error .panicked)
      | _ =>
        -- file is non-unique in length, so we will now hash the whole thing
        match hash_file fs (new_entry.absolute_path fi.base_path) with
        | .error e => (fs, fi, .error e)
        | .ok h =>
          let new_entry := { new_entry with fast_hash := some h }
          -- now compare by hash to insert
          match alookup fi.by_size new_entry.stat_size with
          | none =>
            -- no duplicates, so we will just insert
            match update_file_entry fi new_entry with
            | .error e => (fs, fi, .error e)
            | .ok (fi, e) => (fs, fi, .ok e)
          | some potential_dupes => try_candidates fs fi new_entry potential_dupes

/-- A sequence of admissions; the flag records that every call succeeded
(a failing call stops the run, keeping the state it left behind). -/
def run_adds (fs : TestFs) (fi : FilesIndex) :
    List (List Nat) → TestFs × FilesIndex × Bool
  | [] => (fs, fi, true)
  | p :: ps =>
    match add_file fs fi p with
    | (fs', fi', .ok _) => run_adds fs' fi' ps
    | (fs', fi', .error _) => (fs', fi', false)

end FilesIndex

/-! ## The index codec

The sidecar serialization is performed by the external `csv`/`serde` crates;
only its observable format is specified (§4.6) and pinned by the source's
`test_write_to_csv`. -/

/-- Decimal digit bytes of a natural number. -/
def natBytes (n : Nat) : List Nat := (Nat.toDigits 10 n).map Char.toNat

/-- Parse decimal digit bytes. -/
def parseNat (l : List Nat) : Except Err Nat :=
  if l ≠ [] ∧ ∀ b ∈ l, 48 ≤ b ∧ b ≤ 57 then
    .ok (l.foldl (fun a b => a * 10 + (b - 48)) 0)
  else .error .codec

/-- The header row fixed by §4.6:
`relative_path,fast_hash,stat_size,stat_modified,stat_accessed,stat_created,stat_inode`. -/
def csvHeader : List Nat :=
  [114, 101, 108, 97, 116, 105, 118, 101, 95, 112, 97, 116, 104, 44,
   102, 97, 115, 116, 95, 104, 97, 115, 104, 44,
   115, 116, 97, 116, 95, 115, 105, 122, 101, 44,
   115, 116, 97, 116, 95, 109, 111, 100, 105, 102, 105, 101, 100, 44,
   115, 116, 97, 116, 95, 97, 99, 99, 101, 115, 115, 101, 100, 44,
   115, 116, 97, 116, 95, 99, 114, 101, 97, 116, 101, 100, 44,
   115, 116, 97, 116, 95, 105, 110, 111, 100, 101]

/-- Modelled from the spec: serialization of one FE as a CSV record (§4.6):
the seven columns in order, `fast_hash` as "the decimal representation of the
128-bit digest or empty" (timestamps, RFC 3339 in the external codec, are
rendered in their underlying numeric form here). -/
def serialize_entry (e : FileEntry) : List Nat :=
  e.relative_path ++ 44 ::
    ((match e.fast_hash with | none => [] | some h => natBytes h) ++ 44 ::
      (natBytes e.stat_size ++ 44 ::
        (natBytes e.stat_modified ++ 44 ::
          (natBytes e.stat_accessed ++ 44 ::
            (natBytes e.stat_created ++ 44 :: natBytes e.stat_inode)))))

/-- Modelled from the spec: deserialization of one CSV record (§4.6); a
malformed record is a `Codec` error (§7). -/
def parse_row (row : List Nat) : Except Err FileEntry :=
  match row.splitOn 44 with
  | [p, h, s, m, a, c, i] => do
    let hash ←
      match h with
      | [] => pure none
      | _ => do pure (some (← parseNat h))
    let size ← parseNat s
    let modified ← parseNat m
    let accessed ← parseNat a
    let created ← parseNat c
    let inode ← parseNat i
    pure ⟨p, hash, size, modified, accessed, created, inode⟩
  | _ => .error .codec

/-- The sidecar blob: header row then one newline-terminated record per
entry, as in the source's `test_write_to_csv`. -/
def serialize_entries (es : List FileEntry) : List Nat :=
  csvHeader ++ 10 :: (es.map (fun e => serialize_entry e ++ [10])).flatten

/-- Deserialize a sidecar blob: split records on newlines, skip the header
record (`csv::Reader` has headers on by default), parse each record. -/
def parse_rows (blob : List Nat) : Except Err (List FileEntry) :=
  let rows := (blob.splitOn 10).filter (fun r => ¬ r.isEmpty)
  (rows.drop 1).mapM parse_row

namespace FilesIndex

/-- `FilesIndex::save` (lines 105-115): serialize `entries` into
`<base_path>/.index_file.csv` through the FA. -/
def save (fs : TestFs) (fi : FilesIndex) : TestFs × Except Err Unit :=
  fs.write_to_file (joinPath fi.base_path indexFileName) (serialize_entries fi.entries)

/-- `FilesIndex::for_base_path` (lines 92-103): open
`<base_path>/.index_file.csv`, deserialize the FE list, and call the bulk
constructor. -/
def for_base_path (fs : TestFs) (base_path : List Nat) : Except Err FilesIndex := do
  let blob ← fs.openFile (joinPath base_path indexFileName)
  let entries ← parse_rows blob
  pure (from_entries base_path entries)

end FilesIndex

/-! ## Concrete instances used by the claim analyses -/

namespace Instances

/-- The base directory `"/b/"`. -/
def base : List Nat := [47, 98, 47]

/-- The name `"t1"`. -/
def t1 : List Nat := [116, 49]

/-- The name `"t2"`. -/
def t2 : List Nat := [116, 50]

/-- The name `"a"`. -/
def nmA : List Nat := [97]

/-- The name `"b"`. -/
def nmB : List Nat := [98]

/-- The name `"c"`. -/
def nmC : List Nat := [99]

/-- The bytes of `"asdf"`. -/
def asdf : List Nat := [97, 115, 100, 102]

/-- A tree whose two names `t1`, `t2` are already hard links of one inode —
the ordinary state of an already-deduplicated tree whose sidecar is absent. -/
def linkedFs : TestFs where
  filedata := [(base ++ t1, asdf), (base ++ t2, asdf)]
  inodes := [(base ++ t1, 1), (base ++ t2, 1)]
  cwd := base
  read_only := false
  mut_log := []

/-- Admitting both names of the linked pair into a fresh index. -/
def c1run : TestFs × FilesIndex × Bool :=
  FilesIndex.run_adds linkedFs (FilesIndex.new base) [t1, t2]

/-- `a`, `b` hard-linked (inode 1, bytes `[7,8]`); `c` a distinct file of the
same size (inode 2, bytes `[9,9]`). -/
def fsABC : TestFs where
  filedata := [(base ++ nmA, [7, 8]), (base ++ nmB, [7, 8]), (base ++ nmC, [9, 9])]
  inodes := [(base ++ nmA, 1), (base ++ nmB, 1), (base ++ nmC, 2)]
  cwd := base
  read_only := false
  mut_log := []

/-- Admitting `a` (unique, unhashed), then `c` (same size: both get hashed),
then `b` (second name of `a`'s inode, whose slot should inherit `a`'s hash). -/
def c2run : TestFs × FilesIndex × Bool :=
  FilesIndex.run_adds fsABC (FilesIndex.new base) [nmA, nmC, nmB]

/-- An indexed entry for a path `"e"` that is missing from the tree. -/
def c3existing : FileEntry := ⟨[101], some 9, 1, 0, 0, 0, 5⟩

/-- The duplicate entry for path `"n"`, present in the tree. -/
def c3new : FileEntry := ⟨[110], some 9, 1, 0, 0, 0, 6⟩

/-- A tree holding only `"n"`, so that the transaction's `hard_link` step
fails after the initial rename succeeded. -/
def c3fs : TestFs where
  filedata := [(base ++ [110], [1])]
  inodes := [(base ++ [110], 6)]
  cwd := base
  read_only := false
  mut_log := []

/-- Running the link transaction into the failing `hard_link`. -/
def c3run : TestFs × FilesIndex × Except Err FileEntry :=
  FilesIndex.hard_link_and_insert c3fs (FilesIndex.new base) c3existing c3new

/-- A read-only tree with two equal files on distinct inodes (dry run over a
tree holding one duplicate). -/
def c4fs : TestFs where
  filedata := [(base ++ t1, asdf), (base ++ t2, asdf)]
  inodes := [(base ++ t1, 1), (base ++ t2, 2)]
  cwd := base
  read_only := true
  mut_log := []

/-- Dry-run admission of the first file (no duplicate yet). -/
def c4run1 : TestFs × FilesIndex × Except Err FileEntry :=
  FilesIndex.add_file c4fs (FilesIndex.new base) t1

/-- Dry-run admission of the confirmed duplicate. -/
def c4run2 : TestFs × FilesIndex × Except Err FileEntry :=
  FilesIndex.add_file c4run1.1 c4run1.2.1 t2

/-- A tree with an empty file `a` and a one-byte file `b`. -/
def c5fs : TestFs where
  filedata := [(base ++ nmA, []), (base ++ nmB, [1])]
  inodes := [(base ++ nmA, 1), (base ++ nmB, 2)]
  cwd := base
  read_only := false
  mut_log := []

/-- Entry for the empty file. -/
def c5e1 : FileEntry := ⟨nmA, none, 0, 0, 0, 0, 1⟩

/-- Entry for the one-byte file. -/
def c5e2 : FileEntry := ⟨nmB, none, 1, 0, 0, 0, 2⟩

/-- An indexed entry for `"e"`, a same-size candidate of the file to admit. -/
def c6E : FileEntry := ⟨[101], none, 1, 0, 0, 0, 5⟩

/-- A tree whose working directory `/b/s/` differs from the index base `/b/`:
the admission path `f` resolves to `/b/s/f` (inode 7, relative name `s/f`),
while re-canonicalizing the relative name `s/f` resolves to `/b/s/s/f`, a
pre-existing second link of `/b/e`'s inode 5. -/
def c6fs : TestFs where
  filedata := [(base ++ [101], [9]), (base ++ [115, 47, 102], [9]),
    (base ++ [115, 47, 115, 47, 102], [9])]
  inodes := [(base ++ [101], 5), (base ++ [115, 47, 102], 7),
    (base ++ [115, 47, 115, 47, 102], 5)]
  cwd := base ++ [115, 47]
  read_only := false
  mut_log := []

/-- The index holding `c6E`, with every secondary map as §3 prescribes (the
audit passes on it). -/
def c6fi : FilesIndex where
  base_path := base
  entries := [c6E]
  by_relative_path := [([101], 0)]
  by_size := [(1, [0])]
  by_inode := [(5, [0])]
  by_hash := []
  inode_by_size := [(1, [5])]
  inode_by_hash := []

/-- First admission of `f`. -/
def c6run1 : TestFs × FilesIndex × Except Err FileEntry :=
  FilesIndex.add_file c6fs c6fi [102]

/-- Second admission of `f`, from the state the first one left. -/
def c6run2 : TestFs × FilesIndex × Except Err FileEntry :=
  FilesIndex.add_file c6run1.1 c6run1.2.1 [102]

/-- The entry admitting `t1` into a fresh index stores. -/
def c6wE : FileEntry := ⟨t1, none, 4, 0, 0, 0, 1⟩

/-- The index state after admitting `t1` into a fresh index over `linkedFs`. -/
def c6wfi : FilesIndex :=
  ⟨base, [c6wE], [(t1, 0)], [(4, [0])], [(1, [0])], [], [(4, [1])], []⟩

/-- The indexed candidate entry for `a` (inode 1, size 2, unhashed). -/
def c9E : FileEntry := ⟨nmA, none, 2, 0, 0, 0, 1⟩

/-- A tree with `a` (inode 1) and `b` (inode 2) holding equal bytes. -/
def c9fs : TestFs where
  filedata := [(base ++ nmA, [7, 8]), (base ++ nmB, [7, 8])]
  inodes := [(base ++ nmA, 1), (base ++ nmB, 2)]
  cwd := base
  read_only := false
  mut_log := []

/-- The index holding only `c9E`, so `b`'s size bucket has exactly one
candidate. -/
def c9fi : FilesIndex where
  base_path := base
  entries := [c9E]
  by_relative_path := [(nmA, 0)]
  by_size := [(2, [0])]
  by_inode := [(1, [0])]
  by_hash := []
  inode_by_size := [(2, [1])]
  inode_by_hash := []

/-- The tentative entry `add_file b` builds over `c9fs`. -/
def c9ne : FileEntry := ⟨nmB, none, 2, 0, 0, 0, 2⟩

/-- The filesystem after the link transaction: `b` now shares `a`'s inode 1,
the `.backup` name is gone, and the ghost log shows exactly the transaction's
three mutators. -/
def c9fs1 : TestFs :=
  ⟨[(base ++ nmA, [7, 8]), (base ++ nmB, [7, 8])],
   [(base ++ nmA, 1), (base ++ nmB, 1)], base, false,
   [.rename (base ++ nmB) (base ++ nmB ++ backupSuffix),
    .hard_link (base ++ nmA) (base ++ nmB),
    .remove_file (base ++ nmB ++ backupSuffix)]⟩

/-- The index after the admission: both slots carry the digest `1800` and
inode 1. -/
def c9fi1 : FilesIndex :=
  ⟨base,
   [⟨nmA, some 1800, 2, 0, 0, 0, 1⟩, ⟨nmB, some 1800, 2, 0, 0, 0, 1⟩],
   [(nmA, 0), (nmB, 1)], [(2, [0, 1])], [(1, [0, 1])], [(1800, [0, 1])],
   [(2, [1])], [(1800, [1])]⟩

/-- The entry the admission of `b` returns. -/
def c9stored : FileEntry := ⟨nmB, some 1800, 2, 0, 0, 0, 1⟩

/-- An unhashed entry preceding a hashed entry in the `entries` sequence. -/
def c7e0 : FileEntry := ⟨[120], none, 3, 0, 0, 0, 5⟩

/-- A hashed entry at slot 1. -/
def c7e1 : FileEntry := ⟨[121], some 77, 4, 0, 0, 0, 6⟩

/-- An index over those two entries satisfying every §3 invariant: slot 1 is
registered under hash 77. -/
def c7x : FilesIndex where
  base_path := base
  entries := [c7e0, c7e1]
  by_relative_path := [([120], 0), ([121], 1)]
  by_size := [(3, [0]), (4, [1])]
  by_inode := [(5, [0]), (6, [1])]
  by_hash := [(77, [1])]
  inode_by_size := [(3, [5]), (4, [6])]
  inode_by_hash := [(77, [6])]

/-- An empty writable tree to hold the sidecar. -/
def c7fs0 : TestFs := ⟨[], [], base, false, []⟩

/-- Serializing `c7x` to the sidecar. -/
def c7saved : TestFs × Except Err Unit := FilesIndex.save c7fs0 c7x

/-- Loading the sidecar back. -/
def c7loaded : Except Err FilesIndex := FilesIndex.for_base_path c7saved.1 base

end Instances

/-- The admission invariant: the well-formedness the admission algorithm
maintains over a filesystem/index pair — working directory pinned to the
`/`-terminated base, duplicate-free tables, byte-valued contents, entries
carrying relative non-`.backup` names registered in `by_relative_path`,
every entry in sync with its file (bytes present, inode and size matching,
a present hash being the content digest), `by_size` complete and sound, and
the deduplication property itself: two entries of equal size carrying the
same present hash share their inode. -/
structure Inv (fs : TestFs) (fi : FilesIndex) : Prop where
  base_slash : fi.base_path.getLastD 0 = 47
  cwd_eq : fs.cwd = fi.base_path
  ndF : (fs.filedata.map Prod.fst).Nodup
  ndI : (fs.inodes.map Prod.fst).Nodup
  bytes : ∀ pc ∈ fs.filedata, ∀ b ∈ pc.2, b < 256
  names : ∀ j e, fi.entries.get? j = some e →
    hasRoot e.relative_path = false ∧
    backupSuffix.isSuffixOf e.relative_path = false
  byrel : ∀ j e, fi.entries.get? j = some e →
    alookup fi.by_relative_path e.relative_path = some j
  sync : ∀ j e, fi.entries.get? j = some e →
    ∃ c, alookup fs.filedata (joinPath fi.base_path e.relative_path) = some c ∧
      alookup fs.inodes (joinPath fi.base_path e.relative_path)
        = some e.stat_inode ∧
      e.stat_size = c.length ∧
      ∀ hh, e.fast_hash = some hh → hh = fastHash c
  size_compl : ∀ j e, fi.entries.get? j = some e →
    ∃ b, alookup fi.by_size e.stat_size = some b ∧ j ∈ b
  size_sound : ∀ s b, alookup fi.by_size s = some b → ∀ j ∈ b,
    ∃ e, fi.entries.get? j = some e ∧ e.stat_size = s
  size_sorted : ∀ s b, alookup fi.by_size s = some b → b.Sorted (· < ·)
  dedup : ∀ j k ej ek hh, fi.entries.get? j = some ej →
    fi.entries.get? k = some ek → ej.stat_size = ek.stat_size →
    ej.fast_hash = some hh → ek.fast_hash = some hh →
    ej.stat_inode = ek.stat_inode

/-! ## General lemmas about the model primitives -/

theorem alookup_ainsert {κ β : Type} [DecidableEq κ] (m : List (κ × β)) (k k' : κ) (v : β) :
    alookup (ainsert m k v) k' = if k' = k then some v else alookup m k' := by
  induction m with
  | nil => simp [ainsert, alookup]
  | cons hd tl ih =>
    obtain ⟨k0, v0⟩ := hd
    by_cases h : k = k0
    · subst h
      by_cases h' : k' = k <;> simp [ainsert, alookup, h']
    · by_cases h' : k' = k0 <;> by_cases h'' : k' = k <;>
        simp_all [ainsert, alookup]

theorem alookup_eq_none {κ β : Type} [DecidableEq κ] (m : List (κ × β)) (k : κ)
    (h : k ∉ m.map Prod.fst) : alookup m k = none := by
  induction m with
  | nil => rfl
  | cons hd tl ih =>
    obtain ⟨k0, v0⟩ := hd
    simp only [List.map_cons, List.mem_cons] at h
    push_neg at h
    simp [alookup, h.1, ih h.2]

theorem alookup_aerase {κ β : Type} [DecidableEq κ] (m : List (κ × β)) (k k' : κ)
    (hnd : (m.map Prod.fst).Nodup) :
    alookup (aerase m k) k' = if k' = k then none else alookup m k' := by
  induction m with
  | nil => simp [aerase, alookup]
  | cons hd tl ih =>
    obtain ⟨k0, v0⟩ := hd
    simp only [List.map_cons, List.nodup_cons] at hnd
    by_cases h : k = k0
    · subst h
      by_cases h' : k' = k
      · subst h'
        simp only [aerase, if_pos rfl, if_pos rfl]
        exact alookup_eq_none tl k' hnd.1
      · simp [aerase, alookup, h']
    · have hne : ¬ k = k0 := h
      by_cases h' : k' = k0
      · subst h'
        simp [aerase, alookup, hne, Ne.symm hne]
      · simp [aerase, alookup, hne, h', ih hnd.2]

theorem mem_binsert (b : List Nat) (v x : Nat) :
    x ∈ binsert b v ↔ x = v ∨ x ∈ b := by
  induction b with
  | nil => simp [binsert]
  | cons hd tl ih =>
    unfold binsert
    split_ifs with h1 h2
    · simp only [List.mem_cons]
    · subst h2; simp only [List.mem_cons]; tauto
    · simp only [List.mem_cons, ih]; tauto

theorem binsert_sorted (b : List Nat) (v : Nat) (hs : b.Sorted (· < ·)) :
    (binsert b v).Sorted (· < ·) := by
  induction b with
  | nil => simp [binsert]
  | cons hd tl ih =>
    rw [List.sorted_cons] at hs
    unfold binsert
    split_ifs with h1 h2
    · rw [List.sorted_cons]
      constructor
      · intro b hb
        rcases List.mem_cons.mp hb with h | h
        · omega
        · exact lt_trans h1 (hs.1 b h)
      · rw [List.sorted_cons]; exact hs
    · subst h2
      rw [List.sorted_cons]; exact hs
    · rw [List.sorted_cons]
      refine ⟨?_, ih hs.2⟩
      intro b hb
      rcases (mem_binsert tl v b).mp hb with h | h
      · omega
      · exact hs.1 b h

theorem binsert_of_mem (b : List Nat) (v : Nat) (hs : b.Sorted (· < ·)) (hm : v ∈ b) :
    binsert b v = b := by
  induction b with
  | nil => cases hm
  | cons hd tl ih =>
    rw [List.sorted_cons] at hs
    rcases List.mem_cons.mp hm with h | h
    · subst h
      unfold binsert
      rw [if_neg (by omega), if_pos rfl]
    · have hlt : hd < v := hs.1 v h
      unfold binsert
      rw [if_neg (by omega), if_neg (by omega), ih hs.2 h]

theorem binsert_berase (b : List Nat) (v : Nat) (hs : b.Sorted (· < ·)) (hm : v ∈ b) :
    binsert (berase b v) v = b := by
  induction b with
  | nil => cases hm
  | cons hd tl ih =>
    rw [List.sorted_cons] at hs
    by_cases h : hd = v
    · subst h
      simp only [berase, List.erase_cons_head]
      cases tl with
      | nil => simp [binsert]
      | cons h2 t2 =>
        have : hd < h2 := hs.1 h2 (by simp)
        simp [binsert, this]
    · have hm' : v ∈ tl := by
        rcases List.mem_cons.mp hm with h' | h'
        · exact absurd h'.symm h
        · exact h'
      have hlt : hd < v := hs.1 v hm'
      have herase : berase (hd :: tl) v = hd :: berase tl v := by
        simp only [berase, List.erase_cons]
        rw [if_neg (by simpa using h)]
      rw [herase]
      unfold binsert
      rw [if_neg (by omega), if_neg (by omega), ih hs.2 hm']

theorem berase_sorted (b : List Nat) (v : Nat) (hs : b.Sorted (· < ·)) :
    (berase b v).Sorted (· < ·) :=
  List.Pairwise.sublist (List.erase_sublist v b) hs

theorem mem_berase_of_ne (b : List Nat) (v x : Nat) (hs : b.Sorted (· < ·)) (hne : x ≠ v)
    (hm : x ∈ b) : x ∈ berase b v :=
  (List.Nodup.mem_erase_iff (List.Sorted.nodup hs)).mpr ⟨hne, hm⟩

theorem mem_of_mem_berase {b : List Nat} {v x : Nat} (hm : x ∈ berase b v) : x ∈ b :=
  List.mem_of_mem_erase hm

theorem hashWrite_append (s : Nat) (b1 b2 : List Nat) :
    hashWrite s (b1 ++ b2) = hashWrite (hashWrite s b1) b2 := by
  simp [hashWrite, List.foldl_append]

theorem hashWrite_le (s : Nat) (b : List Nat) :
    hashWrite s b < (s + 1) * 256 ^ b.length := by
  induction b generalizing s with
  | nil => simp [hashWrite]
  | cons hd tl ih =>
    have h1 : hashWrite s (hd :: tl) = hashWrite (s * 256 + hd % 256) tl := rfl
    rw [h1]
    have h2 := ih (s * 256 + hd % 256)
    have h3 : hd % 256 < 256 := Nat.mod_lt _ (by omega)
    calc hashWrite (s * 256 + hd % 256) tl
        < (s * 256 + hd % 256 + 1) * 256 ^ tl.length := h2
      _ ≤ ((s + 1) * 256) * 256 ^ tl.length := by
          have : s * 256 + hd % 256 + 1 ≤ (s + 1) * 256 := by omega
          exact Nat.mul_le_mul_right _ this
      _ = (s + 1) * 256 ^ (hd :: tl).length := by
          rw [List.length_cons, pow_succ]
          ring

/-- With equal lengths and well-formed bytes, the digest determines the
content: the §3 contract of the digest. -/
theorem fastHash_inj (c1 c2 : List Nat) (hlen : c1.length = c2.length)
    (hb1 : ∀ b ∈ c1, b < 256) (hb2 : ∀ b ∈ c2, b < 256)
    (hh : fastHash c1 = fastHash c2) : c1 = c2 := by
  unfold fastHash at hh
  have main : ∀ (s t : Nat) (c1 c2 : List Nat), c1.length = c2.length →
      (∀ b ∈ c1, b < 256) → (∀ b ∈ c2, b < 256) →
      hashWrite s c1 = hashWrite t c2 → s = t ∧ c1 = c2 := by
    intro s t c1 c2 hlen hb1 hb2 hh
    induction c1 generalizing s t c2 with
    | nil =>
      cases c2 with
      | nil => exact ⟨hh, rfl⟩
      | cons _ _ => simp at hlen
    | cons hd tl ih =>
      cases c2 with
      | nil => simp at hlen
      | cons hd2 tl2 =>
        simp only [List.length_cons, Nat.succ_inj] at hlen
        have h1 : hashWrite s (hd :: tl) = hashWrite (s * 256 + hd % 256) tl := rfl
        have h2 : hashWrite t (hd2 :: tl2) = hashWrite (t * 256 + hd2 % 256) tl2 := rfl
        rw [h1, h2] at hh
        obtain ⟨hst, htl⟩ := ih (s * 256 + hd % 256) (t * 256 + hd2 % 256) tl2 hlen
          (fun b hb => hb1 b (by simp [hb])) (fun b hb => hb2 b (by simp [hb])) hh
        have hhd : hd % 256 = hd := Nat.mod_eq_of_lt (hb1 hd (by simp))
        have hhd2 : hd2 % 256 = hd2 := Nat.mod_eq_of_lt (hb2 hd2 (by simp))
        rw [hhd, hhd2] at hst
        have hdlt : hd < 256 := hb1 hd (by simp)
        have hd2lt : hd2 < 256 := hb2 hd2 (by simp)
        have hs : s = t := by omega
        have hhdeq : hd = hd2 := by omega
        exact ⟨hs, by rw [hhdeq, htl]⟩
  exact (main 0 0 c1 c2 hlen hb1 hb2 hh).2

/-! ## Association lists with duplicate-free keys -/

theorem mem_map_fst_ainsert {κ β : Type} [DecidableEq κ] (m : List (κ × β)) (k k' : κ)
    (v : β) : k' ∈ (ainsert m k v).map Prod.fst ↔ k' = k ∨ k' ∈ m.map Prod.fst := by
  induction m with
  | nil => simp [ainsert]
  | cons hd tl ih =>
    obtain ⟨k0, v0⟩ := hd
    by_cases h : k = k0
    · subst h
      simp [ainsert]
    · simp only [ainsert, if_neg h, List.map_cons, List.mem_cons, ih]
      tauto

theorem nodup_ainsert {κ β : Type} [DecidableEq κ] (m : List (κ × β)) (k : κ) (v : β)
    (hnd : (m.map Prod.fst).Nodup) : ((ainsert m k v).map Prod.fst).Nodup := by
  induction m with
  | nil => simp [ainsert]
  | cons hd tl ih =>
    obtain ⟨k0, v0⟩ := hd
    simp only [List.map_cons, List.nodup_cons] at hnd
    by_cases h : k = k0
    · subst h
      have he : ainsert ((k, v0) :: tl) k v = (k, v) :: tl := by
        simp [ainsert]
      rw [he]
      simp only [List.map_cons, List.nodup_cons]
      exact hnd
    · simp only [ainsert, if_neg h, List.map_cons, List.nodup_cons]
      refine ⟨?_, ih hnd.2⟩
      rw [mem_map_fst_ainsert]
      push_neg
      exact ⟨fun hk => h hk.symm, hnd.1⟩

theorem map_fst_aerase_sublist {κ β : Type} [DecidableEq κ] (m : List (κ × β)) (k : κ) :
    ((aerase m k).map Prod.fst).Sublist (m.map Prod.fst) := by
  induction m with
  | nil => simp [aerase]
  | cons hd tl ih =>
    obtain ⟨k0, v0⟩ := hd
    by_cases h : k = k0
    · subst h
      simp only [aerase, if_pos rfl, List.map_cons]
      exact (List.sublist_cons_self _ _)
    · simp only [aerase, if_neg h, List.map_cons]
      exact List.Sublist.cons₂ _ ih

theorem nodup_aerase {κ β : Type} [DecidableEq κ] (m : List (κ × β)) (k : κ)
    (hnd : (m.map Prod.fst).Nodup) : ((aerase m k).map Prod.fst).Nodup :=
  List.Nodup.sublist (map_fst_aerase_sublist m k) hnd

/-! ## Path algebra -/

theorem joinPath_slash (b p : List Nat) (hb : b.getLastD 0 = 47) :
    joinPath b p = b ++ p := by
  unfold joinPath
  rw [if_pos hb]

theorem joinPath_inj (b p q : List Nat) (h : joinPath b p = joinPath b q) : p = q := by
  unfold joinPath at h
  by_cases hb : b.getLastD 0 = 47
  · rw [if_pos hb, if_pos hb] at h
    exact List.append_cancel_left h
  · rw [if_neg hb, if_neg hb] at h
    have := List.append_cancel_left h
    exact List.cons_injective this

theorem stripPrefix_join (b p : List Nat) : stripPrefix b (b ++ p) = some p := by
  unfold stripPrefix
  rw [if_pos (List.isPrefixOf_iff_prefix.mpr ⟨p, rfl⟩)]
  rw [List.drop_left]

theorem stripPrefix_ok (b p r : List Nat) (h : stripPrefix b p = some r) :
    b ++ r = p := by
  unfold stripPrefix at h
  by_cases hb : b.isPrefixOf p
  · rw [if_pos hb, Option.some.injEq] at h
    obtain ⟨t, ht⟩ := List.isPrefixOf_iff_prefix.mp hb
    subst ht
    rw [List.drop_left] at h
    rw [h]
  · rw [if_neg hb] at h
    cases h

/-! ## The `.backup` sibling name is a different name -/

theorem intercalate_cons_ne_nil (sep a : List Nat) (l : List (List Nat)) (hl : l ≠ []) :
    List.intercalate sep (a :: l) = a ++ sep ++ List.intercalate sep l := by
  cases l with
  | nil => exact absurd rfl hl
  | cons b t =>
    simp [List.intercalate, List.intersperse]

theorem length_intercalate_concat (init : List (List Nat)) (m : List Nat) :
    (List.intercalate [47] (init ++ [m])).length
      = (List.intercalate [47] (init ++ [[]])).length + m.length := by
  induction init with
  | nil =>
    simp [List.intercalate]
  | cons a t ih =>
    rw [List.cons_append, List.cons_append,
      intercalate_cons_ne_nil _ _ _ (by simp),
      intercalate_cons_ne_nil _ _ _ (by simp)]
    simp only [List.length_append]
    omega

theorem getLastD_nil_eq_getLast (ll : List (List Nat)) (h : ll ≠ []) :
    ll.getLastD [] = ll.getLast h := by
  cases ll with
  | nil => exact absurd rfl h
  | cons a t =>
    rw [List.getLastD_eq_getLast?, List.getLast?_eq_getLast _ h]
    rfl

theorem backup_rel_length (p : List Nat) :
    (withFileName p (fileName p ++ backupSuffix)).length = p.length + 7 := by
  unfold withFileName fileName
  have hne : p.splitOn 47 ≠ [] := by
    unfold List.splitOn
    exact List.splitOnP_ne_nil _ p
  have hlast : (p.splitOn 47).getLastD [] = (p.splitOn 47).getLast hne :=
    getLastD_nil_eq_getLast _ hne
  have hsplit : (p.splitOn 47).dropLast ++ [(p.splitOn 47).getLast hne] = p.splitOn 47 :=
    List.dropLast_append_getLast hne
  have hp : List.intercalate [47] (p.splitOn 47) = p := List.intercalate_splitOn p 47
  rw [hlast]
  rw [length_intercalate_concat]
  have hplen : p.length =
      (List.intercalate [47] ((p.splitOn 47).dropLast ++ [[]])).length
        + ((p.splitOn 47).getLast hne).length := by
    conv_lhs => rw [← hp, ← hsplit]
    rw [length_intercalate_concat]
  rw [List.length_append]
  have hbs : backupSuffix.length = 7 := rfl
  omega

theorem backup_rel_ne (p : List Nat) :
    withFileName p (fileName p ++ backupSuffix) ≠ p := by
  intro h
  have := backup_rel_length p
  rw [h] at this
  omega

/-! ## Specifications of the in-memory filesystem operations -/

theorem TestFs.openFile_of_lookup (fs : TestFs) (p c : List Nat)
    (hc : alookup fs.filedata p = some c) : fs.openFile p = Except.ok c := by
  unfold TestFs.openFile
  rw [hc]

theorem TestFs.openFile_ok (fs : TestFs) (p c : List Nat)
    (h : fs.openFile p = Except.ok c) : alookup fs.filedata p = some c := by
  unfold TestFs.openFile at h
  cases hc : alookup fs.filedata p with
  | none => rw [hc] at h; cases h
  | some c' => rw [hc] at h; cases h; rfl

theorem TestFs.canonicalize_congr (fs fs' : TestFs) (p : List Nat)
    (h : fs'.cwd = fs.cwd) : fs'.canonicalize p = fs.canonicalize p := by
  unfold TestFs.canonicalize
  rw [h]

theorem TestFs.metadata_of_lookup (fs : TestFs) (p c : List Nat) (ino : Nat)
    (hc : alookup fs.filedata p = some c) (hi : alookup fs.inodes p = some ino) :
    fs.metadata p = Except.ok (c.length, 0, 0, 0, ino) := by
  unfold TestFs.metadata
  rw [hc, hi]

theorem TestFs.metadata_ok (fs : TestFs) (p : List Nat)
    (r : Nat × Nat × Nat × Nat × Nat) (h : fs.metadata p = Except.ok r) :
    ∃ c ino, alookup fs.filedata p = some c ∧ alookup fs.inodes p = some ino ∧
      r = (c.length, 0, 0, 0, ino) := by
  unfold TestFs.metadata at h
  cases hc : alookup fs.filedata p with
  | none => rw [hc] at h; cases h
  | some c =>
    cases hi : alookup fs.inodes p with
    | none => rw [hc, hi] at h; cases h
    | some ino =>
      rw [hc, hi] at h
      cases h
      exact ⟨c, ino, rfl, rfl, rfl⟩

/-- Success behaviour of `TestFs.rename` on a filesystem with duplicate-free
path tables. -/
theorem TestFs.rename_spec (fs : TestFs) (src dst : List Nat) (fs2 : TestFs)
    (hndF : (fs.filedata.map Prod.fst).Nodup) (hndI : (fs.inodes.map Prod.fst).Nodup)
    (hsd : src ≠ dst) (h : fs.rename src dst = (fs2, Except.ok ())) :
    ∃ c ino, alookup fs.filedata src = some c ∧ alookup fs.inodes src = some ino ∧
      fs2.cwd = fs.cwd ∧ fs2.read_only = fs.read_only ∧
      alookup fs2.filedata dst = some c ∧ alookup fs2.inodes dst = some ino ∧
      alookup fs2.filedata src = none ∧ alookup fs2.inodes src = none ∧
      (∀ x, x ≠ src → x ≠ dst →
        alookup fs2.filedata x = alookup fs.filedata x ∧
        alookup fs2.inodes x = alookup fs.inodes x) ∧
      (fs2.filedata.map Prod.fst).Nodup ∧ (fs2.inodes.map Prod.fst).Nodup := by
  unfold TestFs.rename at h
  dsimp only at h
  by_cases hro : fs.read_only
  · rw [if_pos (by simpa using hro)] at h
    cases h
  · rw [if_neg (by simpa using hro)] at h
    cases hc : alookup fs.filedata src with
    | none => simp only [hc] at h; exact absurd h (by simp)
    | some c =>
      simp only [hc] at h
      cases hi : alookup fs.inodes src with
      | none => simp only [hi] at h; exact absurd h (by simp)
      | some ino =>
        simp only [hi] at h
        refine ⟨c, ino, rfl, rfl, ?_⟩
        by_cases hdst : (alookup fs.filedata dst).isSome
        · obtain ⟨cd, hcd⟩ := Option.isSome_iff_exists.mp hdst
          rw [if_pos (by simpa using hdst)] at h
          cases hid : alookup fs.inodes dst with
          | none => simp only [hid] at h; exact absurd h (by simp)
          | some inod =>
            simp only [hid] at h
            have hndF2 : ((aerase fs.filedata dst).map Prod.fst).Nodup :=
              nodup_aerase _ _ hndF
            have hndI2 : ((aerase fs.inodes dst).map Prod.fst).Nodup :=
              nodup_aerase _ _ hndI
            have hc2 : alookup (aerase fs.filedata dst) src = some c := by
              rw [alookup_aerase _ _ _ hndF, if_neg hsd]; exact hc
            have hi2 : alookup (aerase fs.inodes dst) src = some ino := by
              rw [alookup_aerase _ _ _ hndI, if_neg hsd]; exact hi
            simp only [hc2, hi2] at h
            cases h
            refine ⟨rfl, rfl, ?_, ?_, ?_, ?_, ?_, ?_, ?_⟩
            · rw [alookup_ainsert, if_pos rfl]
            · rw [alookup_ainsert, if_pos rfl]
            · rw [alookup_ainsert, if_neg hsd,
                alookup_aerase _ _ _ hndF2, if_pos rfl]
            · rw [alookup_ainsert, if_neg hsd,
                alookup_aerase _ _ _ hndI2, if_pos rfl]
            · intro x hxs hxd
              constructor
              · rw [alookup_ainsert, if_neg hxd,
                  alookup_aerase _ _ _ hndF2, if_neg hxs,
                  alookup_aerase _ _ _ hndF, if_neg hxd]
              · rw [alookup_ainsert, if_neg hxd,
                  alookup_aerase _ _ _ hndI2, if_neg hxs,
                  alookup_aerase _ _ _ hndI, if_neg hxd]
            · exact nodup_ainsert _ _ _ (nodup_aerase _ _ hndF2)
            · exact nodup_ainsert _ _ _ (nodup_aerase _ _ hndI2)
        · rw [if_neg (by simpa using hdst)] at h
          simp only [hi, hc] at h
          cases h
          have hdn : alookup fs.filedata dst = none := by
            cases hx : alookup fs.filedata dst with
            | none => rfl
            | some y => rw [hx] at hdst; exact absurd rfl hdst
          refine ⟨rfl, rfl, ?_, ?_, ?_, ?_, ?_, ?_, ?_⟩
          · rw [alookup_ainsert, if_pos rfl]
          · rw [alookup_ainsert, if_pos rfl]
          · rw [alookup_ainsert, if_neg hsd, alookup_aerase _ _ _ hndF, if_pos rfl]
          · rw [alookup_ainsert, if_neg hsd,
              alookup_aerase _ _ _ hndI, if_pos rfl]
          · intro x hxs hxd
            constructor
            · rw [alookup_ainsert, if_neg hxd, alookup_aerase _ _ _ hndF, if_neg hxs]
            · rw [alookup_ainsert, if_neg hxd,
                alookup_aerase _ _ _ hndI, if_neg hxs]
          · exact nodup_ainsert _ _ _ (nodup_aerase _ _ hndF)
          · exact nodup_ainsert _ _ _ (nodup_aerase _ _ hndI)

/-- Success behaviour of `TestFs.hard_link`. -/
theorem TestFs.hard_link_spec (fs : TestFs) (src dst : List Nat) (fs2 : TestFs)
    (h : fs.hard_link src dst = (fs2, Except.ok ())) :
    ∃ c ino, alookup fs.filedata src = some c ∧ alookup fs.inodes src = some ino ∧
      alookup fs.filedata dst = none ∧
      fs2.cwd = fs.cwd ∧ fs2.read_only = fs.read_only ∧
      alookup fs2.filedata dst = some c ∧ alookup fs2.inodes dst = some ino ∧
      (∀ x, x ≠ dst →
        alookup fs2.filedata x = alookup fs.filedata x ∧
        alookup fs2.inodes x = alookup fs.inodes x) ∧
      ((fs.filedata.map Prod.fst).Nodup → (fs2.filedata.map Prod.fst).Nodup) ∧
      ((fs.inodes.map Prod.fst).Nodup → (fs2.inodes.map Prod.fst).Nodup) := by
  unfold TestFs.hard_link at h
  dsimp only at h
  by_cases hro : fs.read_only
  · rw [if_pos (by simpa using hro)] at h
    cases h
  · rw [if_neg (by simpa using hro)] at h
    by_cases hdst : (alookup fs.filedata dst).isSome
    · rw [if_pos (by simpa using hdst)] at h
      cases h
    · rw [if_neg (by simpa using hdst)] at h
      cases hc : alookup fs.filedata src with
      | none => simp only [hc] at h; exact absurd h (by simp)
      | some c =>
        simp only [hc] at h
        cases hi : alookup fs.inodes src with
        | none => simp only [hi] at h; exact absurd h (by simp)
        | some ino =>
          simp only [hi] at h
          cases h
          have hdn : alookup fs.filedata dst = none := by
            cases hx : alookup fs.filedata dst with
            | none => rfl
            | some y => rw [hx] at hdst; exact absurd rfl hdst
          refine ⟨c, ino, rfl, rfl, hdn, rfl, rfl, ?_, ?_, ?_, ?_, ?_⟩
          · rw [alookup_ainsert, if_pos rfl]
          · rw [alookup_ainsert, if_pos rfl]
          · intro x hxd
            constructor
            · rw [alookup_ainsert, if_neg hxd]
            · rw [alookup_ainsert, if_neg hxd]
          · exact fun hnd => nodup_ainsert _ _ _ hnd
          · exact fun hnd => nodup_ainsert _ _ _ hnd

/-- Success behaviour of `TestFs.remove_file`. -/
theorem TestFs.remove_file_spec (fs : TestFs) (p : List Nat) (fs2 : TestFs)
    (hndF : (fs.filedata.map Prod.fst).Nodup) (hndI : (fs.inodes.map Prod.fst).Nodup)
    (h : fs.remove_file p = (fs2, Except.ok ())) :
    fs2.cwd = fs.cwd ∧ fs2.read_only = fs.read_only ∧
    alookup fs2.filedata p = none ∧ alookup fs2.inodes p = none ∧
    (∀ x, x ≠ p →
      alookup fs2.filedata x = alookup fs.filedata x ∧
      alookup fs2.inodes x = alookup fs.inodes x) ∧
    (fs2.filedata.map Prod.fst).Nodup ∧ (fs2.inodes.map Prod.fst).Nodup := by
  unfold TestFs.remove_file at h
  dsimp only at h
  by_cases hro : fs.read_only
  · rw [if_pos (by simpa using hro)] at h
    cases h
  · rw [if_neg (by simpa using hro)] at h
    cases hi : alookup fs.inodes p with
    | none => simp only [hi] at h; exact absurd h (by simp)
    | some ino =>
      simp only [hi] at h
      cases hc : alookup fs.filedata p with
      | none => simp only [hc] at h; exact absurd h (by simp)
      | some c =>
        simp only [hc] at h
        cases h
        refine ⟨rfl, rfl, ?_, ?_, ?_, nodup_aerase _ _ hndF, nodup_aerase _ _ hndI⟩
        · rw [alookup_aerase _ _ _ hndF, if_pos rfl]
        · rw [alookup_aerase _ _ _ hndI, if_pos rfl]
        · intro x hxp
          exact ⟨by rw [alookup_aerase _ _ _ hndF, if_neg hxp],
            by rw [alookup_aerase _ _ _ hndI, if_neg hxp]⟩

/-! ## Building file entries -/

theorem fileEntry_new_of_lookup (fs : TestFs) (base p rel c : List Nat) (ino : Nat)
    (hs : stripPrefix base (fs.canonicalize p) = some rel)
    (hc : alookup fs.filedata (fs.canonicalize p) = some c)
    (hi : alookup fs.inodes (fs.canonicalize p) = some ino) :
    FileEntry.new fs base p = Except.ok ⟨rel, none, c.length, 0, 0, 0, ino⟩ := by
  unfold FileEntry.new
  dsimp only
  rw [hs, TestFs.metadata_of_lookup fs _ c ino hc hi]

theorem fileEntry_new_ok (fs : TestFs) (base p : List Nat) (ne : FileEntry)
    (h : FileEntry.new fs base p = Except.ok ne) :
    ∃ c, stripPrefix base (fs.canonicalize p) = some ne.relative_path ∧
      alookup fs.filedata (fs.canonicalize p) = some c ∧
      alookup fs.inodes (fs.canonicalize p) = some ne.stat_inode ∧
      ne.fast_hash = none ∧ ne.stat_size = c.length ∧
      ne.stat_modified = 0 ∧ ne.stat_accessed = 0 ∧ ne.stat_created = 0 := by
  unfold FileEntry.new at h
  dsimp only at h
  cases hs : stripPrefix base (fs.canonicalize p) with
  | none => rw [hs] at h; cases h
  | some rel =>
    rw [hs] at h
    cases hm : fs.metadata (fs.canonicalize p) with
    | error e => rw [hm] at h; cases h
    | ok r =>
      rw [hm] at h
      obtain ⟨c, ino, hc, hi, hr⟩ := TestFs.metadata_ok fs _ r hm
      subst hr
      cases h
      exact ⟨c, rfl, hc, hi, rfl, rfl, rfl, rfl, rfl⟩

/-! ## Characterizing successful upserts -/

open FilesIndex

theorem get?_set_self (l : List FileEntry) (i : Nat) (a : FileEntry) (h : i < l.length) :
    (l.set i a).get? i = some a := by
  rw [List.get?_eq_getElem?]
  exact List.getElem?_set_eq_of_lt a h

theorem get?_concat_len (l : List FileEntry) (a : FileEntry) :
    (l ++ [a]).get? l.length = some a := by
  rw [List.get?_eq_getElem?]
  exact List.getElem?_concat_length l a

theorem get?_lt (l : List FileEntry) (i : Nat) (a : FileEntry) (h : l.get? i = some a) :
    i < l.length :=
  (List.get?_eq_some.mp h).1

/-- What a successful `update_file_entry` guarantees: either it
short-circuited (nothing changed, the stored entry agrees with the argument
except for the hash, and the argument carried no hash), or the argument
itself is now stored at a slot reachable from every relevant map. -/
theorem update_file_entry_ok (fi : FilesIndex) (fe : FileEntry)
    (fi' : FilesIndex) (st : FileEntry)
    (h : update_file_entry fi fe = Except.ok (fi', st)) :
    fi'.base_path = fi.base_path ∧
    ((fi' = fi ∧ fe.eq_except_hash st = true ∧ fe.fast_hash = none ∧
       ∃ idx, alookup fi.by_relative_path fe.relative_path = some idx ∧
         fi.entries.get? idx = some st) ∨
     (st = fe ∧
       ∃ idx, alookup fi'.by_relative_path fe.relative_path = some idx ∧
         fi'.entries.get? idx = some fe ∧
         (alookup fi'.by_inode fe.stat_inode).isSome = true ∧
         (alookup fi'.by_size fe.stat_size).isSome = true)) := by
  unfold update_file_entry at h
  dsimp only at h
  cases hrel : alookup fi.by_relative_path fe.relative_path with
  | none =>
    simp only [hrel] at h
    cases hfh : fe.fast_hash with
    | none =>
      simp only [hfh, Except.ok.injEq] at h
      obtain ⟨hfi, hst⟩ := Prod.mk.injEq .. ▸ h
      subst hfi; subst hst
      refine ⟨rfl, Or.inr ⟨rfl, fi.entries.length, ?_, ?_, ?_, ?_⟩⟩
      · rw [alookup_ainsert, if_pos rfl]
      · exact get?_concat_len fi.entries fe
      · dsimp only [addToBucket]; rw [alookup_ainsert, if_pos rfl]; rfl
      · dsimp only [addToBucket]; rw [alookup_ainsert, if_pos rfl]; rfl
    | some hh =>
      simp only [hfh, Except.ok.injEq] at h
      obtain ⟨hfi, hst⟩ := Prod.mk.injEq .. ▸ h
      subst hfi; subst hst
      refine ⟨rfl, Or.inr ⟨rfl, fi.entries.length, ?_, ?_, ?_, ?_⟩⟩
      · rw [alookup_ainsert, if_pos rfl]
      · exact get?_concat_len fi.entries fe
      · dsimp only [addToBucket]; rw [alookup_ainsert, if_pos rfl]; rfl
      · dsimp only [addToBucket]; rw [alookup_ainsert, if_pos rfl]; rfl
  | some idx =>
    simp only [hrel] at h
    cases hget : fi.entries.get? idx with
    | none => simp only [hget] at h; cases h
    | some ex =>
      simp only [hget] at h
      by_cases hsc : (fe.eq_except_hash ex && fe.fast_hash.isNone) = true
      · rw [if_pos hsc] at h
        simp only [Except.ok.injEq] at h
        obtain ⟨hfi, hst⟩ := Prod.mk.injEq .. ▸ h
        subst hfi; subst hst
        obtain ⟨h1, h2⟩ := Bool.and_eq_true_iff.mp hsc
        exact ⟨rfl, Or.inl ⟨rfl, h1, Option.isNone_iff_eq_none.mp h2,
          idx, rfl, hget⟩⟩
      · rw [if_neg hsc] at h
        have hlt : idx < fi.entries.length := get?_lt _ _ _ hget
        cases hb1 : removeFromBucket fi.by_size ex.stat_size idx with
        | error e => simp only [hb1] at h; cases h
        | ok bySize =>
          simp only [hb1] at h
          cases hb2 : removeFromBucket fi.by_inode ex.stat_inode idx with
          | error e => simp only [hb2] at h; cases h
          | ok byInode =>
            simp only [hb2] at h
            cases hb3 : removeFromBucket fi.inode_by_size ex.stat_size ex.stat_inode with
            | error e => simp only [hb3] at h; cases h
            | ok inodeBySize =>
              simp only [hb3] at h
              cases hfh : ex.fast_hash with
              | none =>
                simp only [hfh] at h
                cases hfe : fe.fast_hash with
                | none =>
                  simp only [hfe, Except.ok.injEq] at h
                  obtain ⟨hfi, hst⟩ := Prod.mk.injEq .. ▸ h
                  subst hfi; subst hst
                  refine ⟨rfl, Or.inr ⟨rfl, idx, ?_, ?_, ?_, ?_⟩⟩
                  · rw [alookup_ainsert, if_pos rfl]
                  · exact get?_set_self fi.entries idx fe hlt
                  · dsimp only [addToBucket]; rw [alookup_ainsert, if_pos rfl]; rfl
                  · dsimp only [addToBucket]; rw [alookup_ainsert, if_pos rfl]; rfl
                | some hh =>
                  simp only [hfe, Except.ok.injEq] at h
                  obtain ⟨hfi, hst⟩ := Prod.mk.injEq .. ▸ h
                  subst hfi; subst hst
                  refine ⟨rfl, Or.inr ⟨rfl, idx, ?_, ?_, ?_, ?_⟩⟩
                  · rw [alookup_ainsert, if_pos rfl]
                  · exact get?_set_self fi.entries idx fe hlt
                  · dsimp only [addToBucket]; rw [alookup_ainsert, if_pos rfl]; rfl
                  · dsimp only [addToBucket]; rw [alookup_ainsert, if_pos rfl]; rfl
              | some h0 =>
                simp only [hfh] at h
                cases hb4 : removeFromBucket fi.by_hash h0 idx with
                | error e => simp only [hb4] at h; cases h
                | ok bh =>
                  simp only [hb4] at h
                  cases hb5 : removeFromBucket fi.inode_by_hash h0 ex.stat_inode with
                  | error e => simp only [hb5] at h; cases h
                  | ok ibh =>
                    simp only [hb5] at h
                    cases hfe : fe.fast_hash with
                    | none =>
                      simp only [hfe, Except.ok.injEq] at h
                      obtain ⟨hfi, hst⟩ := Prod.mk.injEq .. ▸ h
                      subst hfi; subst hst
                      refine ⟨rfl, Or.inr ⟨rfl, idx, ?_, ?_, ?_, ?_⟩⟩
                      · rw [alookup_ainsert, if_pos rfl]
                      · exact get?_set_self fi.entries idx fe hlt
                      · dsimp only [addToBucket]; rw [alookup_ainsert, if_pos rfl]; rfl
                      · dsimp only [addToBucket]; rw [alookup_ainsert, if_pos rfl]; rfl
                    | some hh =>
                      simp only [hfe, Except.ok.injEq] at h
                      obtain ⟨hfi, hst⟩ := Prod.mk.injEq .. ▸ h
                      subst hfi; subst hst
                      refine ⟨rfl, Or.inr ⟨rfl, idx, ?_, ?_, ?_, ?_⟩⟩
                      · rw [alookup_ainsert, if_pos rfl]
                      · exact get?_set_self fi.entries idx fe hlt
                      · dsimp only [addToBucket]; rw [alookup_ainsert, if_pos rfl]; rfl
                      · dsimp only [addToBucket]; rw [alookup_ainsert, if_pos rfl]; rfl

/-! ## Characterizing a successful link transaction -/

/-- What a successful `hard_link_and_insert` guarantees, on a well-formed
filesystem whose working directory is the index's `/`-terminated base path
and for a new entry whose relative name is not rooted.  The transaction
collapses the new path onto the existing entry's inode, removes the
`.backup` sibling it parked the bytes at, touches no other path, and stores
the re-statted entry, which keeps the new entry's (present) hash. -/
theorem hard_link_and_insert_ok (fs : TestFs) (fi : FilesIndex) (ex nw : FileEntry)
    (fs' : TestFs) (fi' : FilesIndex) (e : FileEntry)
    (hhash : nw.fast_hash.isSome = true)
    (hroot : hasRoot nw.relative_path = false)
    (hcwd : fs.cwd = fi.base_path)
    (hbase : fi.base_path.getLastD 0 = 47)
    (hndF : (fs.filedata.map Prod.fst).Nodup) (hndI : (fs.inodes.map Prod.fst).Nodup)
    (hexn : ex.relative_path ≠
      withFileName nw.relative_path (fileName nw.relative_path ++ backupSuffix))
    (h : hard_link_and_insert fs fi ex nw = (fs', fi', Except.ok e)) :
    fs'.cwd = fs.cwd ∧ fs'.read_only = fs.read_only ∧
    (fs'.filedata.map Prod.fst).Nodup ∧ (fs'.inodes.map Prod.fst).Nodup ∧
    fi'.base_path = fi.base_path ∧
    e.relative_path = nw.relative_path ∧ e.fast_hash = nw.fast_hash ∧
    e.stat_inode = ex.stat_inode ∧ e.stat_size = ex.stat_size ∧
    FileEntry.new fs' fi.base_path nw.relative_path =
      Except.ok { e with fast_hash := none } ∧
    (∃ idx, alookup fi'.by_relative_path e.relative_path = some idx ∧
      fi'.entries.get? idx = some e) ∧
    (alookup fi'.by_inode e.stat_inode).isSome = true ∧
    alookup fs'.filedata (nw.absolute_path fi.base_path) =
      alookup fs.filedata (ex.absolute_path fi.base_path) ∧
    alookup fs'.inodes (nw.absolute_path fi.base_path) =
      alookup fs.inodes (ex.absolute_path fi.base_path) ∧
    alookup fs'.filedata (joinPath fi.base_path
      (withFileName nw.relative_path (fileName nw.relative_path ++ backupSuffix)))
      = none ∧
    (∀ x, x ≠ nw.absolute_path fi.base_path →
      x ≠ joinPath fi.base_path
        (withFileName nw.relative_path (fileName nw.relative_path ++ backupSuffix)) →
      alookup fs'.filedata x = alookup fs.filedata x ∧
      alookup fs'.inodes x = alookup fs.inodes x) ∧
    update_file_entry fi e = Except.ok (fi', e) ∧
    nw.stat_size = ex.stat_size ∧ nw.fast_hash = ex.fast_hash ∧
    nw.stat_inode ≠ ex.stat_inode := by
  unfold hard_link_and_insert at h
  dsimp only at h
  by_cases hP : (nw.stat_size = ex.stat_size ∧ nw.fast_hash = ex.fast_hash ∧
      nw.stat_inode ≠ ex.stat_inode)
  · rw [if_neg (not_not_intro hP)] at h
    set absN := nw.absolute_path fi.base_path with habsN
    set absE := ex.absolute_path fi.base_path with habsE
    set bkp := joinPath fi.base_path
      (withFileName nw.relative_path (fileName nw.relative_path ++ backupSuffix))
      with hbkp
    have hNB : absN ≠ bkp := by
      rw [habsN, hbkp]
      unfold FileEntry.absolute_path
      intro hx
      exact backup_rel_ne nw.relative_path (joinPath_inj _ _ _ hx).symm
    have hEB : absE ≠ bkp := by
      rw [habsE, hbkp]
      unfold FileEntry.absolute_path
      intro hx
      exact hexn (joinPath_inj _ _ _ hx)
    rcases hre : fs.rename absN bkp with ⟨fs2, r2⟩
    cases r2 with
    | error e2 => simp only [hre] at h; exact absurd h (by simp)
    | ok u =>
      cases u
      simp only [hre] at h
      obtain ⟨cN, inoN, hcN, hinoN, hcwd2, hro2, hbkC, hbkI, hN2f, hN2i, hoth2,
        hnd2F, hnd2I⟩ := TestFs.rename_spec fs absN bkp fs2 hndF hndI hNB hre
      rcases hhl : fs2.hard_link absE absN with ⟨fs3, r3⟩
      cases r3 with
      | error e3 => simp only [hhl] at h; exact absurd h (by simp)
      | ok u =>
        cases u
        simp only [hhl] at h
        obtain ⟨cE, inoE, hcE3, hinoE3, hdn3, hcwd3, hro3, hN3f, hN3i, hoth3,
          hndimpF, hndimpI⟩ := TestFs.hard_link_spec fs2 absE absN fs3 hhl
        have hnd3F := hndimpF hnd2F
        have hnd3I := hndimpI hnd2I
        have hEN : absE ≠ absN := by
          intro hx
          rw [hx, hdn3] at hcE3
          cases hcE3
        cases hfn : FileEntry.new fs3 fi.base_path nw.relative_path with
        | error e4 => simp only [hfn] at h; exact absurd h (by simp)
        | ok fresh =>
          simp only [hfn] at h
          obtain ⟨c3, hs3, hc3, hi3, hfh3, hsz3, hm3, ha3, hcr3⟩ :=
            fileEntry_new_ok fs3 fi.base_path nw.relative_path fresh hfn
          have hcan3 : fs3.canonicalize nw.relative_path = absN := by
            unfold TestFs.canonicalize
            rw [if_neg (by simp [hroot]), hcwd3, hcwd2, hcwd, habsN]
            rfl
          have hsp : stripPrefix fi.base_path absN = some nw.relative_path := by
            rw [habsN]
            show stripPrefix fi.base_path (joinPath fi.base_path nw.relative_path)
              = some nw.relative_path
            rw [joinPath_slash _ _ hbase]
            exact stripPrefix_join _ _
          rw [hcan3] at hs3 hc3 hi3
          rw [hsp] at hs3
          have hrelE : fresh.relative_path = nw.relative_path :=
            (Option.some.inj hs3).symm
          rw [hN3f] at hc3
          have hc3E : c3 = cE := (Option.some.inj hc3).symm
          rw [hN3i] at hi3
          have hinoE : fresh.stat_inode = inoE := (Option.some.inj hi3).symm
          by_cases hA2 : (nw.fast_hash, fresh.stat_size, fresh.stat_inode)
              = (ex.fast_hash, ex.stat_size, ex.stat_inode)
          · rw [if_neg (not_not_intro hA2)] at h
            simp only [Prod.mk.injEq] at hA2
            obtain ⟨hfhA2, hszA2, hinoA2⟩ := hA2
            rcases hrm : fs3.remove_file bkp with ⟨fs4, r4⟩
            cases r4 with
            | error e5 => simp only [hrm] at h; exact absurd h (by simp)
            | ok u =>
              cases u
              simp only [hrm] at h
              obtain ⟨hcwd4, hro4, hbk4f, hbk4i, hoth4, hnd4F, hnd4I⟩ :=
                TestFs.remove_file_spec fs3 bkp fs4 hnd3F hnd3I hrm
              cases hup : update_file_entry fi { fresh with fast_hash := nw.fast_hash }
                  with
              | error e6 => simp only [hup] at h; exact absurd h (by simp)
              | ok pr =>
                obtain ⟨fi2, st⟩ := pr
                simp only [hup] at h
                simp only [Prod.mk.injEq, Except.ok.injEq] at h
                obtain ⟨hfs4, hfi2, hst⟩ := h
                subst hfs4; subst hfi2; subst hst
                obtain ⟨hbase2, hdisj⟩ :=
                  update_file_entry_ok fi { fresh with fast_hash := nw.fast_hash }
                    fi2 st hup
                cases hdisj with
                | inl hsc =>
                  obtain ⟨-, -, hnone, -⟩ := hsc
                  have hn2 : nw.fast_hash = none := hnone
                  rw [hn2] at hhash
                  simp at hhash
                | inr hstored =>
                  obtain ⟨hste, idx, hbyrel, hgetidx, hbyino, hbysz⟩ := hstored
                  subst hste
                  have hcan4 : fs4.canonicalize nw.relative_path = absN := by
                    unfold TestFs.canonicalize
                    rw [if_neg (by simp [hroot]), hcwd4, hcwd3, hcwd2, hcwd, habsN]
                    rfl
                  have hc4 : alookup fs4.filedata absN = some cE := by
                    rw [(hoth4 absN hNB).1]; exact hN3f
                  have hi4 : alookup fs4.inodes absN = some inoE := by
                    rw [(hoth4 absN hNB).2]; exact hN3i
                  have hnew4 : FileEntry.new fs4 fi.base_path nw.relative_path =
                      Except.ok ⟨nw.relative_path, none, cE.length, 0, 0, 0, inoE⟩ :=
                    fileEntry_new_of_lookup fs4 fi.base_path nw.relative_path
                      nw.relative_path cE inoE
                      (by rw [hcan4]; exact hsp)
                      (by rw [hcan4]; exact hc4)
                      (by rw [hcan4]; exact hi4)
                  have hstructeq :
                      (⟨nw.relative_path, none, cE.length, 0, 0, 0, inoE⟩ : FileEntry)
                        = { fresh with fast_hash := none } := by
                    rw [FileEntry.mk.injEq]
                    exact ⟨hrelE.symm, rfl, by rw [hsz3, hc3E], hm3.symm, ha3.symm,
                      hcr3.symm, hinoE.symm⟩
                  refine ⟨by rw [hcwd4, hcwd3, hcwd2], by rw [hro4, hro3, hro2],
                    hnd4F, hnd4I, hbase2, hrelE, rfl, hinoA2, hszA2, ?_,
                    ⟨idx, hbyrel, hgetidx⟩, hbyino, ?_, ?_, hbk4f, ?_,
                    hup, hP.1, hP.2.1, hP.2.2⟩
                  · rw [hnew4]
                    exact congrArg Except.ok hstructeq
                  · rw [(hoth4 absN hNB).1, hN3f, ← (hoth2 absE hEN hEB).1, hcE3]
                  · rw [(hoth4 absN hNB).2, hN3i, ← (hoth2 absE hEN hEB).2, hinoE3]
                  · intro x hxN hxB
                    exact ⟨by rw [(hoth4 x hxB).1, (hoth3 x hxN).1,
                        (hoth2 x hxN hxB).1],
                      by rw [(hoth4 x hxB).2, (hoth3 x hxN).2, (hoth2 x hxN hxB).2]⟩
          · rw [if_pos hA2] at h
            exact absurd h (by simp)
  · rw [if_pos hP] at h
    exact absurd h (by simp)

/-! ## Behaviour of the streaming comparator -/

open FilesIndex

theorem compareLoop_sc (fuel : Nat) :
    ∀ (c1 c2 : List Nat) (h1 h2 : Nat) (eq : Bool), c1.length < fuel →
    compareLoop true fuel c1 c2 h1 h2 eq =
      if c1 = c2 then (eq, some (hashWrite h1 c1, hashWrite h2 c2))
      else (false, none) := by
  induction fuel with
  | zero => intro c1 _ _ _ _ hf; omega
  | succ n ih =>
    intro c1 c2 h1 h2 eq hf
    by_cases hb : c1.take 4096 = c2.take 4096
    · by_cases hemp : (c1.take 4096).isEmpty
      · have hc1 : c1 = [] := by
          rcases List.take_eq_nil_iff.mp (List.isEmpty_iff.mp hemp) with h | h
          · omega
          · exact h
        have hc2 : c2 = [] := by
          rcases List.take_eq_nil_iff.mp (by rw [← hb]; exact List.isEmpty_iff.mp hemp)
            with h | h
          · omega
          · exact h
        subst hc1; subst hc2
        simp [compareLoop, hashWrite]
      · have hc1 : c1 ≠ [] := by
          intro h; rw [h] at hemp; exact hemp rfl
        have hrec : compareLoop true (n + 1) c1 c2 h1 h2 eq =
            compareLoop true n (c1.drop 4096) (c2.drop 4096)
              (hashWrite h1 (c1.take 4096)) (hashWrite h2 (c2.take 4096))
              (eq && decide (c1.take 4096 = c2.take 4096)) := by
          simp only [compareLoop]
          rw [if_neg (by simp [hb]), if_neg (by simpa using hemp)]
        have hpos : 0 < c1.length := List.length_pos.mpr hc1
        rw [hrec, ih _ _ _ _ _ (by simp only [List.length_drop]; omega)]
        have hiff : c1 = c2 ↔ c1.drop 4096 = c2.drop 4096 := by
          constructor
          · intro h; rw [h]
          · intro h
            rw [← List.take_append_drop 4096 c1, ← List.take_append_drop 4096 c2, hb, h]
        by_cases hcc : c1 = c2
        · rw [if_pos hcc, if_pos (hiff.mp hcc)]
          rw [decide_eq_true hb, Bool.and_true, ← hashWrite_append, ← hashWrite_append,
            List.take_append_drop, List.take_append_drop]
        · rw [if_neg hcc, if_neg (fun h => hcc (hiff.mpr h))]
    · -- mismatching buffers short-circuit, and the streams cannot be equal
      have hne : c1 ≠ c2 := fun h => hb (by rw [h])
      have : compareLoop true (n + 1) c1 c2 h1 h2 eq = (false, none) := by
        simp only [compareLoop]
        rw [if_pos ⟨hb, trivial⟩]
      rw [this, if_neg hne]

theorem compareLoop_full (fuel : Nat) :
    ∀ (c1 c2 : List Nat) (h1 h2 : Nat) (eq : Bool), c1.length < fuel →
    c1.length = c2.length →
    compareLoop false fuel c1 c2 h1 h2 eq =
      (eq && decide (c1 = c2), some (hashWrite h1 c1, hashWrite h2 c2)) := by
  induction fuel with
  | zero => intro c1 _ _ _ _ hf; omega
  | succ n ih =>
    intro c1 c2 h1 h2 eq hf hlen
    have hnosc : ¬ (c1.take 4096 ≠ c2.take 4096 ∧ false = true) := by
      rintro ⟨_, h⟩; cases h
    by_cases hemp : (c1.take 4096).isEmpty
    · have hc1 : c1 = [] := by
        rcases List.take_eq_nil_iff.mp (List.isEmpty_iff.mp hemp) with h | h
        · omega
        · exact h
      have hc2 : c2 = [] := by
        rw [hc1] at hlen
        exact List.eq_nil_of_length_eq_zero hlen.symm
      subst hc1; subst hc2
      simp [compareLoop, hashWrite]
    · have hc1 : c1 ≠ [] := by
        intro h; rw [h] at hemp; exact hemp rfl
      have hrec : compareLoop false (n + 1) c1 c2 h1 h2 eq =
          compareLoop false n (c1.drop 4096) (c2.drop 4096)
            (hashWrite h1 (c1.take 4096)) (hashWrite h2 (c2.take 4096))
            (eq && decide (c1.take 4096 = c2.take 4096)) := by
        simp only [compareLoop]
        rw [if_neg hnosc, if_neg (by simpa using hemp)]
      have hpos : 0 < c1.length := List.length_pos.mpr hc1
      rw [hrec, ih _ _ _ _ _ (by simp only [List.length_drop]; omega)
        (by simp only [List.length_drop, hlen])]
      rw [← hashWrite_append, ← hashWrite_append, List.take_append_drop,
        List.take_append_drop]
      have hiff : c1 = c2 ↔ (c1.take 4096 = c2.take 4096 ∧ c1.drop 4096 = c2.drop 4096) := by
        constructor
        · intro h; rw [h]; exact ⟨rfl, rfl⟩
        · rintro ⟨h1, h2⟩
          rw [← List.take_append_drop 4096 c1, ← List.take_append_drop 4096 c2, h1, h2]
      have : (decide (c1.take 4096 = c2.take 4096) && decide (c1.drop 4096 = c2.drop 4096))
          = decide (c1 = c2) := by
        rw [← Bool.decide_and]
        exact decide_eq_decide.mpr hiff.symm
      rw [Bool.and_assoc, this]

/-! ## Frame lemmas: which paths touch the filesystem -/

theorem try_candidates_fst (fs : TestFs) (fi : FilesIndex) (ne : FileEntry)
    (l : List Nat)
    (h : ∀ i ∈ l, ∀ E, fi.entries.get? i = some E →
      ∀ r, compare_files fs fi E ne true = Except.ok r → r.1 = false) :
    (try_candidates fs fi ne l).1 = fs := by
  induction l with
  | nil =>
    simp only [try_candidates]
    cases update_file_entry fi ne with
    | error e => rfl
    | ok q => obtain ⟨fi', e'⟩ := q; rfl
  | cons i rest ih =>
    cases hg : fi.entries.get? i with
    | none => simp only [try_candidates, hg]
    | some E =>
      cases hc : compare_files fs fi E ne true with
      | error e => simp only [try_candidates, hg, hc]
      | ok r =>
        obtain ⟨b, d⟩ := r
        have hb : b = false := h i (by simp) E hg (b, d) hc
        subst hb
        simp only [try_candidates, hg, hc]
        exact ih (fun j hj E' hg' r' hc' => h j (by simp [hj]) E' hg' r' hc')

/-! ## Short-circuiting admissions -/

/-- `eq_except_hash` ignores the hash field. -/
theorem eq_except_hash_update (a : FileEntry) (x y : Option Nat) :
    FileEntry.eq_except_hash { a with fast_hash := x } { a with fast_hash := y }
      = true := by
  simp [FileEntry.eq_except_hash]

/-- The upsert short-circuits when the argument is an unhashed re-observation
of a stored entry. -/
theorem update_file_entry_sc (fi : FilesIndex) (fe : FileEntry) (idx : Nat)
    (ex : FileEntry)
    (h1 : alookup fi.by_relative_path fe.relative_path = some idx)
    (h2 : fi.entries.get? idx = some ex)
    (h3 : fe.eq_except_hash ex = true) (h4 : fe.fast_hash = none) :
    update_file_entry fi fe = Except.ok (fi, ex) := by
  unfold update_file_entry
  dsimp only
  simp only [h1, h2, h3, h4, Option.isNone_none, Bool.and_self,
    eq_self_iff_true, if_true]

/-- An admission whose tentative entry has a known inode and unhashed-matches
a stored slot returns the stored entry and changes nothing. -/
theorem add_file_short (fs : TestFs) (fi : FilesIndex) (p : List Nat)
    (ne : FileEntry) (idx : Nat) (st : FileEntry)
    (hne : FileEntry.new fs fi.base_path p = Except.ok ne)
    (hino : (alookup fi.by_inode ne.stat_inode).isSome = true)
    (hrel : alookup fi.by_relative_path ne.relative_path = some idx)
    (hget : fi.entries.get? idx = some st)
    (heq : ne.eq_except_hash st = true) :
    add_file fs fi p = (fs, fi, Except.ok st) := by
  obtain ⟨c, -, -, -, hfh, -, -, -, -⟩ := fileEntry_new_ok fs fi.base_path p ne hne
  have hsc : update_file_entry fi ne = Except.ok (fi, st) :=
    update_file_entry_sc fi ne idx st hrel hget heq hfh
  simp only [add_file, hne, hino, if_true, hsc]

/-- An admission of a size-unique file is a plain upsert that leaves the
filesystem untouched. -/
theorem add_file_unique_short (fs : TestFs) (fi fi' : FilesIndex) (p : List Nat)
    (ne st : FileEntry)
    (hne : FileEntry.new fs fi.base_path p = Except.ok ne)
    (hino : (alookup fi.by_inode ne.stat_inode).isSome = false)
    (hsz : (alookup fi.by_size ne.stat_size).isSome = false)
    (hup : update_file_entry fi ne = Except.ok (fi', st)) :
    add_file fs fi p = (fs, fi', Except.ok st) := by
  simp only [add_file, hne, hino, Bool.false_eq_true, if_false, not_false_iff,
    if_true, hsz, hup]

/-- A successful pass of the candidate loop either stored the new entry as
unique (plain upsert, filesystem untouched) or entered the link transaction
against a candidate slot of the list. -/
theorem try_candidates_ok (fs : TestFs) (fi : FilesIndex) (ne : FileEntry)
    (fs1 : TestFs) (fi1 : FilesIndex) (e1 : FileEntry) :
    ∀ l, try_candidates fs fi ne l = (fs1, fi1, Except.ok e1) →
      (fs1 = fs ∧ update_file_entry fi ne = Except.ok (fi1, e1)) ∨
      (∃ k E, k ∈ l ∧ fi.entries.get? k = some E ∧
        hard_link_and_insert fs fi E ne = (fs1, fi1, Except.ok e1)) := by
  intro l
  induction l with
  | nil =>
    intro h
    unfold try_candidates at h
    cases hup : update_file_entry fi ne with
    | error e => simp only [hup] at h; exact absurd h (by simp)
    | ok pr =>
      obtain ⟨fi2, st⟩ := pr
      simp only [hup] at h
      simp only [Prod.mk.injEq, Except.ok.injEq] at h
      obtain ⟨h1, h2, h3⟩ := h
      exact Or.inl ⟨h1.symm, by rw [← h2, ← h3]⟩
  | cons k rest ih =>
    intro h
    unfold try_candidates at h
    cases hg : fi.entries.get? k with
    | none => simp only [hg] at h; exact absurd h (by simp)
    | some E =>
      simp only [hg] at h
      cases hc : compare_files fs fi E ne true with
      | error e => simp only [hc] at h; exact absurd h (by simp)
      | ok r =>
        obtain ⟨eqb, d⟩ := r
        cases eqb with
        | false =>
          simp only [hc] at h
          rcases ih h with h' | ⟨k', E', hk', hg', hl'⟩
          · exact Or.inl h'
          · exact Or.inr ⟨k', E', List.mem_cons_of_mem _ hk', hg', hl'⟩
        | true =>
          simp only [hc] at h
          exact Or.inr ⟨k, E, List.mem_cons_self _ _, hg, h⟩

/-! ## Toolkit for the admission invariant -/

theorem mem_alookup {κ β : Type} [DecidableEq κ] (m : List (κ × β)) (k : κ) (v : β)
    (h : alookup m k = some v) : (k, v) ∈ m := by
  induction m with
  | nil => cases h
  | cons hd tl ih =>
    obtain ⟨k0, v0⟩ := hd
    unfold alookup at h
    by_cases hk : k = k0
    · subst hk
      rw [if_pos rfl] at h
      cases h
      exact List.mem_cons_self _ _
    · rw [if_neg hk] at h
      exact List.mem_cons_of_mem _ (ih h)

theorem alookup_of_mem {κ β : Type} [DecidableEq κ] (m : List (κ × β)) (k : κ) (v : β)
    (hnd : (m.map Prod.fst).Nodup) (h : (k, v) ∈ m) : alookup m k = some v := by
  induction m with
  | nil => cases h
  | cons hd tl ih =>
    obtain ⟨k0, v0⟩ := hd
    rw [List.map_cons, List.nodup_cons] at hnd
    rcases List.mem_cons.mp h with h1 | h1
    · obtain ⟨hk, hv⟩ := Prod.mk.injEq .. ▸ h1
      subst hk; subst hv
      unfold alookup
      rw [if_pos rfl]
    · have hk : k ≠ k0 := by
        intro hx
        have hmem : k ∈ tl.map Prod.fst := List.mem_map.mpr ⟨(k, v), h1, rfl⟩
        rw [hx] at hmem
        exact hnd.1 hmem
      unfold alookup
      rw [if_neg hk]
      exact ih hnd.2 h1

theorem get?_set_ne (l : List FileEntry) (i j : Nat) (a : FileEntry) (hij : j ≠ i) :
    (l.set i a).get? j = l.get? j := by
  rw [List.get?_eq_getElem?, List.get?_eq_getElem?, List.getElem?_set]
  rw [if_neg (by omega)]

theorem get?_concat_ne (l : List FileEntry) (a : FileEntry) (j : Nat)
    (h : j ≠ l.length) : (l ++ [a]).get? j = l.get? j := by
  by_cases hj : j < l.length
  · rw [List.get?_eq_getElem?, List.get?_eq_getElem?]
    exact List.getElem?_append_left hj
  · have h1 : (l ++ [a]).length ≤ j := by
      rw [List.length_append]
      simp only [List.length_singleton]
      omega
    rw [List.get?_eq_none.mpr h1, List.get?_eq_none.mpr (by omega)]

theorem alookup_addToBucket (m : List (Nat × List Nat)) (k v k' : Nat) :
    alookup (addToBucket m k v) k' =
      if k' = k then some (binsert ((alookup m k).getD []) v) else alookup m k' := by
  unfold addToBucket
  rw [alookup_ainsert]

theorem removeFromBucket_ok (m : List (Nat × List Nat)) (k v : Nat)
    (m' : List (Nat × List Nat)) (h : removeFromBucket m k v = Except.ok m') :
    ∃ b, alookup m k = some b ∧ m' = ainsert m k (berase b v) := by
  unfold removeFromBucket at h
  cases hb : alookup m k with
  | none => rw [hb] at h; cases h
  | some b =>
    rw [hb] at h
    cases h
    exact ⟨b, rfl, rfl⟩

theorem intercalate_concat_append (init : List (List Nat)) (m extra : List Nat) :
    List.intercalate [47] (init ++ [m ++ extra])
      = List.intercalate [47] (init ++ [m]) ++ extra := by
  induction init with
  | nil => simp [List.intercalate]
  | cons a t ih =>
    rw [List.cons_append, List.cons_append,
      intercalate_cons_ne_nil _ _ _ (by simp),
      intercalate_cons_ne_nil _ _ _ (by simp), ih]
    simp [List.append_assoc]

/-- The `.backup` sibling name is the name with `".backup"` appended. -/
theorem backup_rel_eq (p : List Nat) :
    withFileName p (fileName p ++ backupSuffix) = p ++ backupSuffix := by
  unfold withFileName fileName
  have hne : p.splitOn 47 ≠ [] := by
    unfold List.splitOn
    exact List.splitOnP_ne_nil _ p
  rw [getLastD_nil_eq_getLast _ hne, intercalate_concat_append,
    List.dropLast_append_getLast hne, List.intercalate_splitOn p 47]

theorem backup_isSuffix (q : List Nat) :
    backupSuffix.isSuffixOf (q ++ backupSuffix) = true := by
  unfold List.isSuffixOf
  rw [List.reverse_append]
  exact List.isPrefixOf_iff_prefix.mpr (List.prefix_append _ _)

/-- Bucket-map facts for the remove-then-add of the upsert's replace path. -/
theorem bucket_facts_replace (m : List (Nat × List Nat)) (ks kf idx : Nat)
    (b0 : List Nat) (hb0 : alookup m ks = some b0)
    (hsorted : ∀ s b, alookup m s = some b → b.Sorted (· < ·))
    (honly : ∀ s b, alookup m s = some b → idx ∈ b → s = ks) :
    (∀ s j, j ≠ idx → (∃ b, alookup m s = some b ∧ j ∈ b) →
      ∃ b', alookup (addToBucket (ainsert m ks (berase b0 idx)) kf idx) s
        = some b' ∧ j ∈ b') ∧
    (∃ b', alookup (addToBucket (ainsert m ks (berase b0 idx)) kf idx) kf
      = some b' ∧ idx ∈ b') ∧
    (∀ s b' j, alookup (addToBucket (ainsert m ks (berase b0 idx)) kf idx) s
        = some b' → j ∈ b' →
      (j = idx ∧ s = kf) ∨ (j ≠ idx ∧ ∃ b, alookup m s = some b ∧ j ∈ b)) ∧
    (∀ s b', alookup (addToBucket (ainsert m ks (berase b0 idx)) kf idx) s
        = some b' → b'.Sorted (· < ·)) := by
  have hm1 : ∀ s, alookup (ainsert m ks (berase b0 idx)) s =
      if s = ks then some (berase b0 idx) else alookup m s := fun s =>
    alookup_ainsert m ks s (berase b0 idx)
  have hm2 : ∀ s, alookup (addToBucket (ainsert m ks (berase b0 idx)) kf idx) s =
      if s = kf then
        some (binsert ((alookup (ainsert m ks (berase b0 idx)) kf).getD []) idx)
      else alookup (ainsert m ks (berase b0 idx)) s := fun s =>
    alookup_addToBucket _ kf idx s
  have hnd0 : b0.Nodup := List.Sorted.nodup (hsorted ks b0 hb0)
  have hgd : ((alookup (ainsert m ks (berase b0 idx)) kf).getD []).Sorted (· < ·) := by
    rw [hm1]
    by_cases hss : kf = ks
    · rw [if_pos hss]
      exact berase_sorted _ _ (hsorted ks b0 hb0)
    · rw [if_neg hss]
      cases hx : alookup m kf with
      | none => exact List.sorted_nil
      | some b => simpa using hsorted kf b hx
  refine ⟨?_, ?_, ?_, ?_⟩
  · intro s j hj hex
    obtain ⟨b, hb, hjb⟩ := hex
    rw [hm2]
    by_cases hsf : s = kf
    · rw [if_pos hsf]
      refine ⟨_, rfl, (mem_binsert _ _ _).mpr (Or.inr ?_)⟩
      rw [hm1]
      by_cases hks : kf = ks
      · rw [if_pos hks]
        have hbb : b = b0 := by
          rw [hsf, hks, hb0] at hb
          exact (Option.some.inj hb).symm
        subst hbb
        exact mem_berase_of_ne b idx j (hsorted ks b hb0) hj hjb
      · rw [if_neg hks]
        rw [hsf] at hb
        rw [hb]
        simpa using hjb
    · rw [if_neg hsf, hm1]
      by_cases hss : s = ks
      · rw [if_pos hss]
        have hbb : b = b0 := by
          rw [hss, hb0] at hb
          exact (Option.some.inj hb).symm
        refine ⟨berase b0 idx, rfl, ?_⟩
        exact mem_berase_of_ne b0 idx j (hsorted ks b0 hb0) hj (hbb ▸ hjb)
      · rw [if_neg hss]
        exact ⟨b, hb, hjb⟩
  · rw [hm2, if_pos rfl]
    exact ⟨_, rfl, (mem_binsert _ _ _).mpr (Or.inl rfl)⟩
  · intro s b' j hb' hj
    rw [hm2] at hb'
    by_cases hsf : s = kf
    · rw [if_pos hsf] at hb'
      cases hb'
      by_cases hji : j = idx
      · exact Or.inl ⟨hji, hsf⟩
      · refine Or.inr ⟨hji, ?_⟩
        have hj2 : j ∈ (alookup (ainsert m ks (berase b0 idx)) kf).getD [] := by
          rcases (mem_binsert _ _ _).mp hj with h | h
          · exact absurd h hji
          · exact h
        rw [hm1] at hj2
        by_cases hks : kf = ks
        · rw [if_pos hks] at hj2
          refine ⟨b0, by rw [hsf, hks]; exact hb0, mem_of_mem_berase
            (by simpa using hj2)⟩
        · rw [if_neg hks] at hj2
          cases hx : alookup m kf with
          | none => rw [hx] at hj2; simp at hj2
          | some b =>
            rw [hx] at hj2
            exact ⟨b, by rw [hsf]; exact hx, by simpa using hj2⟩
    · rw [if_neg hsf, hm1] at hb'
      by_cases hss : s = ks
      · rw [if_pos hss] at hb'
        cases hb'
        by_cases hji : j = idx
        · subst hji
          obtain ⟨hne, -⟩ := (List.Nodup.mem_erase_iff hnd0).mp hj
          exact absurd rfl hne
        · exact Or.inr ⟨hji, b0, by rw [hss]; exact hb0, mem_of_mem_berase hj⟩
      · rw [if_neg hss] at hb'
        by_cases hji : j = idx
        · subst hji
          exact absurd (honly s b' hb' hj) hss
        · exact Or.inr ⟨hji, b', hb', hj⟩
  · intro s b' hb'
    rw [hm2] at hb'
    by_cases hsf : s = kf
    · rw [if_pos hsf] at hb'
      cases hb'
      exact binsert_sorted _ _ hgd
    · rw [if_neg hsf, hm1] at hb'
      by_cases hss : s = ks
      · rw [if_pos hss] at hb'
        cases hb'
        exact berase_sorted _ _ (hsorted ks b0 hb0)
      · rw [if_neg hss] at hb'
        exact hsorted s b' hb'

/-- Bucket-map facts for the plain add of the upsert's append path. -/
theorem bucket_facts_append (m : List (Nat × List Nat)) (kf idx : Nat)
    (hsorted : ∀ s b, alookup m s = some b → b.Sorted (· < ·))
    (hnone : ∀ s b, alookup m s = some b → idx ∉ b) :
    (∀ s j, j ≠ idx → (∃ b, alookup m s = some b ∧ j ∈ b) →
      ∃ b', alookup (addToBucket m kf idx) s = some b' ∧ j ∈ b') ∧
    (∃ b', alookup (addToBucket m kf idx) kf = some b' ∧ idx ∈ b') ∧
    (∀ s b' j, alookup (addToBucket m kf idx) s = some b' → j ∈ b' →
      (j = idx ∧ s = kf) ∨ (j ≠ idx ∧ ∃ b, alookup m s = some b ∧ j ∈ b)) ∧
    (∀ s b', alookup (addToBucket m kf idx) s = some b' → b'.Sorted (· < ·)) := by
  have hm2 : ∀ s, alookup (addToBucket m kf idx) s =
      if s = kf then some (binsert ((alookup m kf).getD []) idx)
      else alookup m s := fun s => alookup_addToBucket m kf idx s
  have hgd : ((alookup m kf).getD []).Sorted (· < ·) := by
    cases hx : alookup m kf with
    | none => exact List.sorted_nil
    | some b => simpa using hsorted kf b hx
  refine ⟨?_, ?_, ?_, ?_⟩
  · intro s j hj hex
    obtain ⟨b, hb, hjb⟩ := hex
    rw [hm2]
    by_cases hsf : s = kf
    · rw [if_pos hsf]
      refine ⟨_, rfl, (mem_binsert _ _ _).mpr (Or.inr ?_)⟩
      rw [hsf] at hb
      rw [hb]
      simpa using hjb
    · rw [if_neg hsf]
      exact ⟨b, hb, hjb⟩
  · rw [hm2, if_pos rfl]
    exact ⟨_, rfl, (mem_binsert _ _ _).mpr (Or.inl rfl)⟩
  · intro s b' j hb' hj
    rw [hm2] at hb'
    by_cases hsf : s = kf
    · rw [if_pos hsf] at hb'
      cases hb'
      by_cases hji : j = idx
      · exact Or.inl ⟨hji, hsf⟩
      · refine Or.inr ⟨hji, ?_⟩
        have hj2 : j ∈ (alookup m kf).getD [] := by
          rcases (mem_binsert _ _ _).mp hj with h | h
          · exact absurd h hji
          · exact h
        cases hx : alookup m kf with
        | none => rw [hx] at hj2; simp at hj2
        | some b =>
          rw [hx] at hj2
          exact ⟨b, by rw [hsf]; exact hx, by simpa using hj2⟩
    · rw [if_neg hsf] at hb'
      by_cases hji : j = idx
      · subst hji
        exact absurd hj (hnone s b' hb')
      · exact Or.inr ⟨hji, b', hb', hj⟩
  · intro s b' hb'
    rw [hm2] at hb'
    by_cases hsf : s = kf
    · rw [if_pos hsf] at hb'
      cases hb'
      exact binsert_sorted _ _ hgd
    · rw [if_neg hsf] at hb'
      exact hsorted s b' hb'

/-- Full structural characterization of a successful upsert, under sound and
sorted size buckets. -/
theorem update_file_entry_strong (fi : FilesIndex) (fe : FileEntry)
    (fi' : FilesIndex) (st : FileEntry)
    (hsound : ∀ s b, alookup fi.by_size s = some b → ∀ j ∈ b,
      ∃ e, fi.entries.get? j = some e ∧ e.stat_size = s)
    (hsorted : ∀ s b, alookup fi.by_size s = some b → b.Sorted (· < ·))
    (h : update_file_entry fi fe = Except.ok (fi', st)) :
    (fi' = fi ∧ fe.fast_hash = none ∧ fe.eq_except_hash st = true ∧
      ∃ idx, alookup fi.by_relative_path fe.relative_path = some idx ∧
        fi.entries.get? idx = some st) ∨
    (st = fe ∧ fi'.base_path = fi.base_path ∧ ∃ idx,
      (alookup fi.by_relative_path fe.relative_path = some idx ∨
        (alookup fi.by_relative_path fe.relative_path = none ∧
          idx = fi.entries.length)) ∧
      fi'.entries.get? idx = some fe ∧
      (∀ j, j ≠ idx → fi'.entries.get? j = fi.entries.get? j) ∧
      fi'.by_relative_path = ainsert fi.by_relative_path fe.relative_path idx ∧
      (∀ s j, j ≠ idx → (∃ b, alookup fi.by_size s = some b ∧ j ∈ b) →
        ∃ b', alookup fi'.by_size s = some b' ∧ j ∈ b') ∧
      (∃ b', alookup fi'.by_size fe.stat_size = some b' ∧ idx ∈ b') ∧
      (∀ s b' j, alookup fi'.by_size s = some b' → j ∈ b' →
        (j = idx ∧ s = fe.stat_size) ∨
        (j ≠ idx ∧ ∃ b, alookup fi.by_size s = some b ∧ j ∈ b)) ∧
      (∀ s b', alookup fi'.by_size s = some b' → b'.Sorted (· < ·))) := by
  unfold update_file_entry at h
  dsimp only at h
  cases hrel : alookup fi.by_relative_path fe.relative_path with
  | none =>
    simp only [hrel] at h
    have hnone : ∀ s b, alookup fi.by_size s = some b → fi.entries.length ∉ b := by
      intro s b hb hmem
      obtain ⟨e, hje, -⟩ := hsound s b hb _ hmem
      rw [List.get?_eq_none.mpr (le_refl _)] at hje
      cases hje
    obtain ⟨sizeP, sizeC, sizeS, sizeSort⟩ :=
      bucket_facts_append fi.by_size fe.stat_size fi.entries.length hsorted hnone
    cases hfh : fe.fast_hash with
    | none =>
      simp only [hfh, Except.ok.injEq] at h
      obtain ⟨hfi, hst⟩ := Prod.mk.injEq .. ▸ h
      subst hfi; subst hst
      exact Or.inr ⟨rfl, rfl, fi.entries.length, Or.inr ⟨rfl, rfl⟩,
        get?_concat_len fi.entries fe,
        fun j hj => get?_concat_ne fi.entries fe j hj, rfl,
        sizeP, sizeC, sizeS, sizeSort⟩
    | some hh =>
      simp only [hfh, Except.ok.injEq] at h
      obtain ⟨hfi, hst⟩ := Prod.mk.injEq .. ▸ h
      subst hfi; subst hst
      exact Or.inr ⟨rfl, rfl, fi.entries.length, Or.inr ⟨rfl, rfl⟩,
        get?_concat_len fi.entries fe,
        fun j hj => get?_concat_ne fi.entries fe j hj, rfl,
        sizeP, sizeC, sizeS, sizeSort⟩
  | some idx =>
    simp only [hrel] at h
    cases hget : fi.entries.get? idx with
    | none => simp only [hget] at h; cases h
    | some ex =>
      simp only [hget] at h
      by_cases hsc : (fe.eq_except_hash ex && fe.fast_hash.isNone) = true
      · rw [if_pos hsc] at h
        simp only [Except.ok.injEq] at h
        obtain ⟨hfi, hst⟩ := Prod.mk.injEq .. ▸ h
        subst hfi; subst hst
        obtain ⟨h1, h2⟩ := Bool.and_eq_true_iff.mp hsc
        exact Or.inl ⟨rfl, Option.isNone_iff_eq_none.mp h2, h1, idx, rfl, hget⟩
      · rw [if_neg hsc] at h
        have hlt : idx < fi.entries.length := get?_lt _ _ _ hget
        have honly : ∀ s b, alookup fi.by_size s = some b → idx ∈ b →
            s = ex.stat_size := by
          intro s b hb hmem
          obtain ⟨e, hje, hes⟩ := hsound s b hb _ hmem
          rw [hget] at hje
          cases hje
          exact hes.symm
        cases hb1 : removeFromBucket fi.by_size ex.stat_size idx with
        | error e => simp only [hb1] at h; cases h
        | ok bySize =>
          simp only [hb1] at h
          obtain ⟨b0, hb0, hbyeq⟩ := removeFromBucket_ok _ _ _ _ hb1
          subst hbyeq
          obtain ⟨sizeP, sizeC, sizeS, sizeSort⟩ :=
            bucket_facts_replace fi.by_size ex.stat_size fe.stat_size idx b0 hb0
              hsorted honly
          cases hb2 : removeFromBucket fi.by_inode ex.stat_inode idx with
          | error e => simp only [hb2] at h; cases h
          | ok byInode =>
            simp only [hb2] at h
            cases hb3 : removeFromBucket fi.inode_by_size ex.stat_size
                ex.stat_inode with
            | error e => simp only [hb3] at h; cases h
            | ok inodeBySize =>
              simp only [hb3] at h
              cases hfh : ex.fast_hash with
              | none =>
                simp only [hfh] at h
                cases hfe : fe.fast_hash with
                | none =>
                  simp only [hfe, Except.ok.injEq] at h
                  obtain ⟨hfi, hst⟩ := Prod.mk.injEq .. ▸ h
                  subst hfi; subst hst
                  exact Or.inr ⟨rfl, rfl, idx, Or.inl rfl,
                    get?_set_self fi.entries idx fe hlt,
                    fun j hj => get?_set_ne fi.entries idx j fe hj, rfl,
                    sizeP, sizeC, sizeS, sizeSort⟩
                | some hh =>
                  simp only [hfe, Except.ok.injEq] at h
                  obtain ⟨hfi, hst⟩ := Prod.mk.injEq .. ▸ h
                  subst hfi; subst hst
                  exact Or.inr ⟨rfl, rfl, idx, Or.inl rfl,
                    get?_set_self fi.entries idx fe hlt,
                    fun j hj => get?_set_ne fi.entries idx j fe hj, rfl,
                    sizeP, sizeC, sizeS, sizeSort⟩
              | some h0 =>
                simp only [hfh] at h
                cases hb4 : removeFromBucket fi.by_hash h0 idx with
                | error e => simp only [hb4] at h; cases h
                | ok bh =>
                  simp only [hb4] at h
                  cases hb5 : removeFromBucket fi.inode_by_hash h0 ex.stat_inode with
                  | error e => simp only [hb5] at h; cases h
                  | ok ibh =>
                    simp only [hb5] at h
                    cases hfe : fe.fast_hash with
                    | none =>
                      simp only [hfe, Except.ok.injEq] at h
                      obtain ⟨hfi, hst⟩ := Prod.mk.injEq .. ▸ h
                      subst hfi; subst hst
                      exact Or.inr ⟨rfl, rfl, idx, Or.inl rfl,
                        get?_set_self fi.entries idx fe hlt,
                        fun j hj => get?_set_ne fi.entries idx j fe hj, rfl,
                        sizeP, sizeC, sizeS, sizeSort⟩
                    | some hh =>
                      simp only [hfe, Except.ok.injEq] at h
                      obtain ⟨hfi, hst⟩ := Prod.mk.injEq .. ▸ h
                      subst hfi; subst hst
                      exact Or.inr ⟨rfl, rfl, idx, Or.inl rfl,
                        get?_set_self fi.entries idx fe hlt,
                        fun j hj => get?_set_ne fi.entries idx j fe hj, rfl,
                        sizeP, sizeC, sizeS, sizeSort⟩

/-- Short-circuit comparison fully characterized by the two contents. -/
theorem compare_files_sc (fs : TestFs) (fi : FilesIndex) (e1 e2 : FileEntry)
    (c1 c2 : List Nat)
    (h1 : fs.openFile (e1.absolute_path fi.base_path) = Except.ok c1)
    (h2 : fs.openFile (e2.absolute_path fi.base_path) = Except.ok c2) :
    compare_files fs fi e1 e2 true =
      Except.ok (if c1 = c2 then (true, some (fastHash c1, fastHash c2))
        else (false, none)) := by
  have hopen : compare_files fs fi e1 e2 true =
      Except.ok (compare_chunks true c1 c2 0 0 true) := by
    simp only [compare_files, h1, h2]
    rfl
  rw [hopen]
  unfold compare_chunks
  rw [compareLoop_sc (c1.length + 1) c1 c2 0 0 true (by omega)]
  rfl

/-- Full comparison on equal-length contents fully characterized. -/
theorem compare_files_full_eqlen (fs : TestFs) (fi : FilesIndex) (e1 e2 : FileEntry)
    (c1 c2 : List Nat)
    (h1 : fs.openFile (e1.absolute_path fi.base_path) = Except.ok c1)
    (h2 : fs.openFile (e2.absolute_path fi.base_path) = Except.ok c2)
    (hlen : c1.length = c2.length) :
    compare_files fs fi e1 e2 false =
      Except.ok (decide (c1 = c2), some (fastHash c1, fastHash c2)) := by
  have hopen : compare_files fs fi e1 e2 false =
      Except.ok (compare_chunks false c1 c2 0 0 true) := by
    simp only [compare_files, h1, h2]
    rfl
  rw [hopen]
  unfold compare_chunks
  rw [compareLoop_full (c1.length + 1) c1 c2 0 0 true (by omega) hlen]
  rfl

/-- Strengthened candidate-loop characterization: the unique path records a
failed comparison for every candidate. -/
theorem try_candidates_cases (fs : TestFs) (fi : FilesIndex) (ne : FileEntry)
    (fs1 : TestFs) (fi1 : FilesIndex) (e1 : FileEntry) :
    ∀ l, try_candidates fs fi ne l = (fs1, fi1, Except.ok e1) →
      ((∀ k ∈ l, ∃ E r, fi.entries.get? k = some E ∧
          compare_files fs fi E ne true = Except.ok (false, r)) ∧
        fs1 = fs ∧ update_file_entry fi ne = Except.ok (fi1, e1)) ∨
      (∃ k E r, k ∈ l ∧ fi.entries.get? k = some E ∧
        compare_files fs fi E ne true = Except.ok (true, r) ∧
        hard_link_and_insert fs fi E ne = (fs1, fi1, Except.ok e1)) := by
  intro l
  induction l with
  | nil =>
    intro h
    unfold try_candidates at h
    cases hup : update_file_entry fi ne with
    | error e => simp only [hup] at h; exact absurd h (by simp)
    | ok pr =>
      obtain ⟨fi2, st⟩ := pr
      simp only [hup] at h
      simp only [Prod.mk.injEq, Except.ok.injEq] at h
      obtain ⟨h1, h2, h3⟩ := h
      refine Or.inl ⟨fun k hk => absurd hk (List.not_mem_nil k), h1.symm, ?_⟩
      rw [← h2, ← h3]
  | cons k rest ih =>
    intro h
    unfold try_candidates at h
    cases hg : fi.entries.get? k with
    | none => simp only [hg] at h; exact absurd h (by simp)
    | some E =>
      simp only [hg] at h
      cases hc : compare_files fs fi E ne true with
      | error e => simp only [hc] at h; exact absurd h (by simp)
      | ok r =>
        obtain ⟨eqb, d⟩ := r
        cases eqb with
        | false =>
          simp only [hc] at h
          rcases ih h with ⟨hall, h1, h2⟩ | ⟨k', E', r', hk', hg', hc', hl'⟩
          · refine Or.inl ⟨?_, h1, h2⟩
            intro k2 hk2
            rcases List.mem_cons.mp hk2 with hk2 | hk2
            · subst hk2
              exact ⟨E, d, hg, hc⟩
            · exact hall k2 hk2
          · exact Or.inr ⟨k', E', r', List.mem_cons_of_mem _ hk', hg', hc', hl'⟩
        | true =>
          simp only [hc] at h
          exact Or.inr ⟨k, E, d, List.mem_cons_self _ _, hg, hc, h⟩

/-- The index-side invariant clauses survive a structural upsert. -/
theorem inv_step_core (fi fi' : FilesIndex) (fe : FileEntry) (idx : Nat)
    (hnames : ∀ j e, fi.entries.get? j = some e →
      hasRoot e.relative_path = false ∧
      backupSuffix.isSuffixOf e.relative_path = false)
    (hbyrel : ∀ j e, fi.entries.get? j = some e →
      alookup fi.by_relative_path e.relative_path = some j)
    (hcompl : ∀ j e, fi.entries.get? j = some e →
      ∃ b, alookup fi.by_size e.stat_size = some b ∧ j ∈ b)
    (hsoundP : ∀ s b, alookup fi.by_size s = some b → ∀ j ∈ b,
      ∃ e, fi.entries.get? j = some e ∧ e.stat_size = s)
    (hdedup : ∀ j k ej ek hh, fi.entries.get? j = some ej →
      fi.entries.get? k = some ek → ej.stat_size = ek.stat_size →
      ej.fast_hash = some hh → ek.fast_hash = some hh →
      ej.stat_inode = ek.stat_inode)
    (hcase : alookup fi.by_relative_path fe.relative_path = some idx ∨
      (alookup fi.by_relative_path fe.relative_path = none ∧
        idx = fi.entries.length))
    (entF : fi'.entries.get? idx = some fe)
    (entO : ∀ j, j ≠ idx → fi'.entries.get? j = fi.entries.get? j)
    (relF : fi'.by_relative_path = ainsert fi.by_relative_path fe.relative_path idx)
    (sizeP : ∀ s j, j ≠ idx → (∃ b, alookup fi.by_size s = some b ∧ j ∈ b) →
      ∃ b', alookup fi'.by_size s = some b' ∧ j ∈ b')
    (sizeC : ∃ b', alookup fi'.by_size fe.stat_size = some b' ∧ idx ∈ b')
    (sizeS : ∀ s b' j, alookup fi'.by_size s = some b' → j ∈ b' →
      (j = idx ∧ s = fe.stat_size) ∨
      (j ≠ idx ∧ ∃ b, alookup fi.by_size s = some b ∧ j ∈ b))
    (sizeSort : ∀ s b', alookup fi'.by_size s = some b' → b'.Sorted (· < ·))
    (hfn : hasRoot fe.relative_path = false ∧
      backupSuffix.isSuffixOf fe.relative_path = false)
    (hfded : ∀ k ek hh, fi.entries.get? k = some ek → k ≠ idx →
      fe.stat_size = ek.stat_size → fe.fast_hash = some hh →
      ek.fast_hash = some hh → fe.stat_inode = ek.stat_inode) :
    (∀ j e, fi'.entries.get? j = some e →
      hasRoot e.relative_path = false ∧
      backupSuffix.isSuffixOf e.relative_path = false) ∧
    (∀ j e, fi'.entries.get? j = some e →
      alookup fi'.by_relative_path e.relative_path = some j) ∧
    (∀ j e, fi'.entries.get? j = some e →
      ∃ b, alookup fi'.by_size e.stat_size = some b ∧ j ∈ b) ∧
    (∀ s b, alookup fi'.by_size s = some b → ∀ j ∈ b,
      ∃ e, fi'.entries.get? j = some e ∧ e.stat_size = s) ∧
    (∀ s b, alookup fi'.by_size s = some b → b.Sorted (· < ·)) ∧
    (∀ j k ej ek hh, fi'.entries.get? j = some ej →
      fi'.entries.get? k = some ek → ej.stat_size = ek.stat_size →
      ej.fast_hash = some hh → ek.fast_hash = some hh →
      ej.stat_inode = ek.stat_inode) := by
  have hne_rel : ∀ j e, fi.entries.get? j = some e → j ≠ idx →
      e.relative_path ≠ fe.relative_path := by
    intro j e hj hji hx
    have hb := hbyrel j e hj
    rw [hx] at hb
    rcases hcase with hc | ⟨hc, -⟩
    · rw [hc] at hb
      exact hji (Option.some.inj hb).symm
    · rw [hc] at hb
      cases hb
  refine ⟨?_, ?_, ?_, ?_, sizeSort, ?_⟩
  · intro j e hj
    by_cases hji : j = idx
    · subst hji
      rw [entF] at hj
      cases hj
      exact hfn
    · rw [entO j hji] at hj
      exact hnames j e hj
  · intro j e hj
    rw [relF, alookup_ainsert]
    by_cases hji : j = idx
    · subst hji
      rw [entF] at hj
      cases hj
      rw [if_pos rfl]
    · rw [entO j hji] at hj
      rw [if_neg (hne_rel j e hj hji)]
      exact hbyrel j e hj
  · intro j e hj
    by_cases hji : j = idx
    · subst hji
      rw [entF] at hj
      cases hj
      exact sizeC
    · rw [entO j hji] at hj
      exact sizeP e.stat_size j hji (hcompl j e hj)
  · intro s b hb j hj
    rcases sizeS s b j hb hj with ⟨hji, hsz⟩ | ⟨hji, b2, hb2, hj2⟩
    · subst hji
      exact ⟨fe, entF, hsz.symm⟩
    · obtain ⟨e, hje, hes⟩ := hsoundP s b2 hb2 j hj2
      refine ⟨e, ?_, hes⟩
      rw [entO j hji]
      exact hje
  · intro j k ej ek hh hje hke hsz hfj hfk
    by_cases hji : j = idx <;> by_cases hki : k = idx
    · subst hji; subst hki
      rw [entF] at hje hke
      cases hje
      cases hke
      rfl
    · subst hji
      rw [entF] at hje
      cases hje
      rw [entO k hki] at hke
      exact hfded k ek hh hke hki hsz hfj hfk
    · subst hki
      rw [entF] at hke
      cases hke
      rw [entO j hji] at hje
      exact (hfded j ej hh hje hji hsz.symm hfk hfj).symm
    · rw [entO j hji] at hje
      rw [entO k hki] at hke
      exact hdedup j k ej ek hh hje hke hsz hfj hfk

/-- The invariant survives an upsert-only step (filesystem untouched). -/
theorem Inv_update (fs : TestFs) (fi : FilesIndex) (fe : FileEntry)
    (fi' : FilesIndex) (st : FileEntry)
    (hI : Inv fs fi)
    (hfn1 : hasRoot fe.relative_path = false)
    (hfn2 : backupSuffix.isSuffixOf fe.relative_path = false)
    (hfsync : ∃ c, alookup fs.filedata (joinPath fi.base_path fe.relative_path)
        = some c ∧
      alookup fs.inodes (joinPath fi.base_path fe.relative_path)
        = some fe.stat_inode ∧
      fe.stat_size = c.length ∧ ∀ hh, fe.fast_hash = some hh → hh = fastHash c)
    (hfded : ∀ k ek hh, fi.entries.get? k = some ek →
      fe.stat_size = ek.stat_size → fe.fast_hash = some hh →
      ek.fast_hash = some hh → fe.stat_inode = ek.stat_inode)
    (h : update_file_entry fi fe = Except.ok (fi', st)) :
    Inv fs fi' := by
  rcases update_file_entry_strong fi fe fi' st hI.size_sound hI.size_sorted h with
    ⟨hfi, -⟩ | ⟨-, hbase', idx, hcase, entF, entO, relF, sizeP, sizeC, sizeS,
      sizeSort⟩
  · rw [hfi]
    exact hI
  · obtain ⟨hN, hR, hC, hS, hSo, hD⟩ := inv_step_core fi fi' fe idx hI.names
      hI.byrel hI.size_compl hI.size_sound hI.dedup hcase entF entO relF sizeP
      sizeC sizeS sizeSort ⟨hfn1, hfn2⟩
      (fun k ek hh hk _ => hfded k ek hh hk)
    refine ⟨?_, ?_, hI.ndF, hI.ndI, hI.bytes, hN, hR, ?_, hC, hS, hSo, hD⟩
    · rw [hbase']
      exact hI.base_slash
    · rw [hbase']
      exact hI.cwd_eq
    · intro j e hj
      rw [hbase']
      by_cases hji : j = idx
      · subst hji
        rw [entF] at hj
        cases hj
        exact hfsync
      · rw [entO j hji] at hj
        exact hI.sync j e hj

/-- The invariant survives a successful link transaction against an indexed
candidate whose file holds the same bytes as the admitted file's. -/
theorem Inv_link (fs : TestFs) (fi : FilesIndex) (ex nw : FileEntry) (k : Nat)
    (fs1 : TestFs) (fi1 : FilesIndex) (e1 : FileEntry) (hsh : Nat) (cN : List Nat)
    (hI : Inv fs fi)
    (hk : fi.entries.get? k = some ex)
    (hn1 : hasRoot nw.relative_path = false)
    (hn2 : backupSuffix.isSuffixOf nw.relative_path = false)
    (hnfh : nw.fast_hash = some hsh)
    (hdigN : hsh = fastHash cN)
    (hEeq : alookup fs.filedata (joinPath fi.base_path ex.relative_path) = some cN)
    (h : hard_link_and_insert fs fi ex nw = (fs1, fi1, Except.ok e1)) :
    Inv fs1 fi1 := by
  have hexn : ex.relative_path ≠
      withFileName nw.relative_path (fileName nw.relative_path ++ backupSuffix) := by
    rw [backup_rel_eq]
    intro hx
    have hsuf := (hI.names k ex hk).2
    rw [hx, backup_isSuffix] at hsuf
    cases hsuf
  obtain ⟨hgcwd, hgro, hgndF, hgndI, hgbase, hgrel, hgfh, hgino, hgsz, hgnew,
    ⟨idxw, hglook, hgget⟩, hgbyino, hgfA, hgiA, hgbkA, hgframe, hgup, hgsz2,
    hgfh2, hgino2⟩ :=
    hard_link_and_insert_ok fs fi ex nw fs1 fi1 e1
      (by rw [hnfh]; rfl) hn1 hI.cwd_eq hI.base_slash hI.ndF hI.ndI hexn h
  rcases update_file_entry_strong fi e1 fi1 e1 hI.size_sound hI.size_sorted hgup
    with ⟨-, hnone, -⟩ | ⟨-, hbase', idx, hcase, entF, entO, relF, sizeP, sizeC,
      sizeS, sizeSort⟩
  · rw [hgfh, hnfh] at hnone
    cases hnone
  · have hcan1 : fs1.canonicalize nw.relative_path
        = joinPath fi.base_path nw.relative_path := by
      unfold TestFs.canonicalize
      rw [if_neg (by simp [hn1]), hgcwd, hI.cwd_eq]
    obtain ⟨c, hs', hcf, hci, -, hsz', -, -, -⟩ :=
      fileEntry_new_ok fs1 fi.base_path nw.relative_path _ hgnew
    rw [hcan1] at hcf hci
    have hEeq' : alookup fs.filedata (ex.absolute_path fi.base_path) = some cN :=
      hEeq
    have hfa' : alookup fs1.filedata (joinPath fi.base_path nw.relative_path)
        = some cN := by
      have h1 : alookup fs1.filedata (nw.absolute_path fi.base_path) = some cN := by
        rw [hgfA]
        exact hEeq'
      exact h1
    have hcc : c = cN := by
      rw [hfa'] at hcf
      exact (Option.some.inj hcf).symm
    have hfded : ∀ k' ek hh, fi.entries.get? k' = some ek → k' ≠ idx →
        e1.stat_size = ek.stat_size → e1.fast_hash = some hh →
        ek.fast_hash = some hh → e1.stat_inode = ek.stat_inode := by
      intro k' ek hh hk' hki hsz hfj hfk
      have hexh : ex.fast_hash = some hsh := by
        rw [← hgfh2]
        exact hnfh
      have hhsh : hh = hsh := by
        rw [hgfh, hnfh] at hfj
        exact (Option.some.inj hfj).symm
      subst hhsh
      have hss : ex.stat_size = ek.stat_size := by
        rw [← hgsz]
        exact hsz
      have hEk := hI.dedup k k' ex ek hh hk hk' hss hexh hfk
      rw [hgino]
      exact hEk
    obtain ⟨hN, hR, hC, hS, hSo, hD⟩ := inv_step_core fi fi1 e1 idx hI.names
      hI.byrel hI.size_compl hI.size_sound hI.dedup hcase entF entO relF sizeP
      sizeC sizeS sizeSort
      ⟨by rw [hgrel]; exact hn1, by rw [hgrel]; exact hn2⟩ hfded
    refine ⟨?_, ?_, hgndF, hgndI, ?_, hN, hR, ?_, hC, hS, hSo, hD⟩
    · rw [hbase']
      exact hI.base_slash
    · rw [hgcwd, hbase']
      exact hI.cwd_eq
    · rintro ⟨pa, pb⟩ hpc b hbb
      have hlk : alookup fs1.filedata pa = some pb :=
        alookup_of_mem _ _ _ hgndF hpc
      by_cases hpN : pa = nw.absolute_path fi.base_path
      · subst hpN
        rw [hgfA] at hlk
        exact hI.bytes _ (mem_alookup _ _ _ hlk) b hbb
      · by_cases hpB : pa = joinPath fi.base_path
            (withFileName nw.relative_path (fileName nw.relative_path
              ++ backupSuffix))
        · rw [hpB, hgbkA] at hlk
          cases hlk
        · rw [(hgframe pa hpN hpB).1] at hlk
          exact hI.bytes _ (mem_alookup _ _ _ hlk) b hbb
    · intro j e hj
      rw [hbase']
      by_cases hji : j = idx
      · subst hji
        rw [entF] at hj
        cases hj
        refine ⟨c, ?_, ?_, hsz', ?_⟩
        · rw [hgrel]
          exact hcf
        · rw [hgrel]
          exact hci
        · intro hh hfh1
          rw [hgfh, hnfh] at hfh1
          have hhsh : hh = hsh := (Option.some.inj hfh1).symm
          rw [hhsh, hcc]
          exact hdigN
      · rw [entO j hji] at hj
        obtain ⟨ce, hcef, hcei, hces, hceh⟩ := hI.sync j e hj
        have hner : e.relative_path ≠ nw.relative_path := by
          intro hx
          have hb := hI.byrel j e hj
          rw [hx, ← hgrel] at hb
          rcases hcase with hcs | ⟨hcs, -⟩
          · rw [hcs] at hb
            exact hji (Option.some.inj hb).symm
          · rw [hcs] at hb
            cases hb
        have hpne1 : joinPath fi.base_path e.relative_path
            ≠ nw.absolute_path fi.base_path := by
          intro hx
          exact hner (joinPath_inj _ _ _ hx)
        have hpne2 : joinPath fi.base_path e.relative_path
            ≠ joinPath fi.base_path
              (withFileName nw.relative_path (fileName nw.relative_path
                ++ backupSuffix)) := by
          rw [backup_rel_eq]
          intro hx
          have hsx := (hI.names j e hj).2
          rw [joinPath_inj _ _ _ hx, backup_isSuffix] at hsx
          cases hsx
        obtain ⟨hfp, hip⟩ := hgframe _ hpne1 hpne2
        exact ⟨ce, by rw [hfp]; exact hcef, by rw [hip]; exact hcei, hces, hceh⟩

/-- Every successful admission of a relative, non-`.backup`-shaped path
preserves the invariant. -/
theorem add_file_inv (fs : TestFs) (fi : FilesIndex) (p : List Nat)
    (fs1 : TestFs) (fi1 : FilesIndex) (e1 : FileEntry)
    (hI : Inv fs fi)
    (hp1 : hasRoot p = false)
    (hp2 : backupSuffix.isSuffixOf p = false)
    (h : add_file fs fi p = (fs1, fi1, Except.ok e1)) :
    Inv fs1 fi1 := by
  unfold add_file at h
  cases hne : FileEntry.new fs fi.base_path p with
  | error e0 => simp only [hne] at h; exact absurd h (by simp)
  | ok ne =>
    simp only [hne] at h
    obtain ⟨c0, hs0, hc0, hi0, hfh0, hsz0, -, -, -⟩ :=
      fileEntry_new_ok fs fi.base_path p ne hne
    have hcan : fs.canonicalize p = joinPath fi.base_path p := by
      unfold TestFs.canonicalize
      rw [if_neg (by simp [hp1]), hI.cwd_eq]
    have hrelp : ne.relative_path = p := by
      rw [hcan, joinPath_slash _ _ hI.base_slash, stripPrefix_join] at hs0
      exact (Option.some.inj hs0).symm
    rw [hcan] at hc0 hi0
    have hcN : alookup fs.filedata (joinPath fi.base_path ne.relative_path)
        = some c0 := by
      rw [hrelp]
      exact hc0
    have hiN : alookup fs.inodes (joinPath fi.base_path ne.relative_path)
        = some ne.stat_inode := by
      rw [hrelp]
      exact hi0
    have hsyncN : ∃ c,
        alookup fs.filedata (joinPath fi.base_path ne.relative_path) = some c ∧
        alookup fs.inodes (joinPath fi.base_path ne.relative_path)
          = some ne.stat_inode ∧
        ne.stat_size = c.length ∧
        ∀ hh, ne.fast_hash = some hh → hh = fastHash c := by
      refine ⟨c0, hcN, hiN, hsz0, ?_⟩
      intro hh hx
      rw [hfh0] at hx
      cases hx
    have hn1 : hasRoot ne.relative_path = false := by
      rw [hrelp]
      exact hp1
    have hn2 : backupSuffix.isSuffixOf ne.relative_path = false := by
      rw [hrelp]
      exact hp2
    have hopN : fs.openFile (ne.absolute_path fi.base_path) = Except.ok c0 :=
      TestFs.openFile_of_lookup fs _ c0 hcN
    have hbc0 : ∀ b ∈ c0, b < 256 :=
      fun b hb => hI.bytes _ (mem_alookup _ _ _ hcN) b hb
    by_cases hino1 : (alookup fi.by_inode ne.stat_inode).isSome
    · simp only [hino1, if_true] at h
      cases hup : update_file_entry fi ne with
      | error e2 => simp only [hup] at h; exact absurd h (by simp)
      | ok pr =>
        obtain ⟨fi2, st⟩ := pr
        simp only [hup] at h
        simp only [Prod.mk.injEq, Except.ok.injEq] at h
        obtain ⟨hq1, hq2, hq3⟩ := h
        subst hq1; subst hq2; subst hq3
        exact Inv_update fs fi ne fi2 st hI hn1 hn2 hsyncN
          (fun k ek hh _ _ hfh _ => absurd (hfh0 ▸ hfh) (by simp)) hup
    · by_cases hsz1 : (alookup fi.by_size ne.stat_size).isSome
      · obtain ⟨bucket, hbv⟩ := Option.isSome_iff_exists.mp hsz1
        match hbkt : bucket with
        | [] =>
          simp only [hino1, hbv, Option.isSome_some, not_true, Bool.false_eq_true,
            if_false, if_true, Option.getD_some] at h
          cases hhf : hash_file fs (ne.absolute_path fi.base_path) with
          | error e2 => simp only [hhf] at h; exact absurd h (by simp)
          | ok hsh =>
            simp only [hhf] at h
            have hshv : hsh = fastHash c0 := by
              simp only [hash_file, hopN, Except.ok.injEq] at hhf
              exact hhf.symm
            rcases try_candidates_cases fs fi { ne with fast_hash := some hsh }
                fs1 fi1 e1 [] h with ⟨-, hfseq, hup⟩ | ⟨k, E2, r, hk, -, -, -⟩
            · subst hfseq
              refine Inv_update fs1 fi { ne with fast_hash := some hsh } fi1 e1 hI
                hn1 hn2 ⟨c0, hcN, hiN, hsz0, ?_⟩ ?_ hup
              · intro hh hx
                have hx' : hsh = hh := Option.some.inj hx
                rw [← hx']
                exact hshv
              · intro k ek hh hk hsz2 _ _
                have hsz2' : ne.stat_size = ek.stat_size := hsz2
                obtain ⟨b, hb, hkb⟩ := hI.size_compl k ek hk
                rw [← hsz2', hbv] at hb
                cases hb
                exact absurd hkb (List.not_mem_nil k)
            · cases hk
        | [i] =>
          simp only [hino1, hbv, Option.isSome_some, not_true, Bool.false_eq_true,
            if_false, if_true, Option.getD_some] at h
          cases hgE : fi.entries.get? i with
          | none => simp only [hgE] at h; exact absurd h (by simp)
          | some E =>
            simp only [hgE] at h
            have hEsz : E.stat_size = ne.stat_size := by
              obtain ⟨e', hje', hes'⟩ := hI.size_sound ne.stat_size [i] hbv i
                (List.mem_singleton.mpr rfl)
              rw [hgE] at hje'
              cases hje'
              exact hes'
            obtain ⟨cE, hcEf, hcEi, hcEs, hcEh⟩ := hI.sync i E hgE
            have hopE : fs.openFile (E.absolute_path fi.base_path)
                = Except.ok cE :=
              TestFs.openFile_of_lookup fs _ cE hcEf
            have hbcE : ∀ b ∈ cE, b < 256 :=
              fun b hb => hI.bytes _ (mem_alookup _ _ _ hcEf) b hb
            have hlen : cE.length = c0.length := by
              rw [← hcEs, ← hsz0]
              exact hEsz
            have hcmp := compare_files_full_eqlen fs fi E ne cE c0 hopE hopN hlen
            simp only [hcmp] at h
            cases hupE : update_file_entry fi
                { E with fast_hash := some (fastHash cE) } with
            | error e2 => simp only [hupE] at h; exact absurd h (by simp)
            | ok prA =>
              obtain ⟨fiA, EA⟩ := prA
              simp only [hupE] at h
              have hIA : Inv fs fiA := by
                refine Inv_update fs fi { E with fast_hash := some (fastHash cE) }
                  fiA EA hI (hI.names i E hgE).1 (hI.names i E hgE).2
                  ⟨cE, hcEf, hcEi, hcEs, ?_⟩ ?_ hupE
                · intro hh hx
                  have hx' : fastHash cE = hh := Option.some.inj hx
                  rw [← hx']
                · intro k ek hh hk hsz2 _ _
                  have hsz2' : E.stat_size = ek.stat_size := hsz2
                  obtain ⟨b, hb, hkb⟩ := hI.size_compl k ek hk
                  rw [← hsz2', hEsz, hbv] at hb
                  cases hb
                  have hki : k = i := List.mem_singleton.mp hkb
                  subst hki
                  rw [hgE] at hk
                  cases hk
                  rfl
              rcases update_file_entry_strong fi
                  { E with fast_hash := some (fastHash cE) } fiA EA hI.size_sound
                  hI.size_sorted hupE with ⟨-, hnone, -⟩ |
                ⟨-, hbaseA, idxE, hcaseE, entFE, entOE, -, -, -, -, -⟩
              · exact absurd hnone (by simp)
              · have hiE : idxE = i := by
                  rcases hcaseE with hcs | ⟨hcs, -⟩
                  · have hcs' : alookup fi.by_relative_path E.relative_path
                        = some idxE := hcs
                    rw [hI.byrel i E hgE] at hcs'
                    exact (Option.some.inj hcs').symm
                  · have hcs' : alookup fi.by_relative_path E.relative_path
                        = none := hcs
                    rw [hI.byrel i E hgE] at hcs'
                    cases hcs'
                cases hd : decide (cE = c0) with
                | true =>
                  have hEq : cE = c0 := of_decide_eq_true hd
                  simp only [hd, eq_self_iff_true, if_true] at h
                  exact Inv_link fs fiA { E with fast_hash := some (fastHash cE) }
                    { ne with fast_hash := some (fastHash c0) } idxE fs1 fi1 e1
                    (fastHash c0) c0 hIA entFE hn1 hn2 rfl rfl
                    (by show alookup fs.filedata
                          (joinPath fiA.base_path E.relative_path) = some c0
                        rw [hbaseA, ← hEq]
                        exact hcEf)
                    h
                | false =>
                  have hNe : cE ≠ c0 := of_decide_eq_false hd
                  simp only [hd, Bool.false_eq_true, if_false] at h
                  cases hup2 : update_file_entry fiA
                      { ne with fast_hash := some (fastHash c0) } with
                  | error e2 => simp only [hup2] at h; exact absurd h (by simp)
                  | ok prB =>
                    obtain ⟨fiB, stB⟩ := prB
                    simp only [hup2] at h
                    simp only [Prod.mk.injEq, Except.ok.injEq] at h
                    obtain ⟨hq1, hq2, hq3⟩ := h
                    subst hq1; subst hq2; subst hq3
                    refine Inv_update fs fiA
                      { ne with fast_hash := some (fastHash c0) } fiB stB hIA
                      hn1 hn2 ⟨c0, ?_, ?_, hsz0, ?_⟩ ?_ hup2
                    · show alookup fs.filedata
                        (joinPath fiA.base_path ne.relative_path) = some c0
                      rw [hbaseA]
                      exact hcN
                    · show alookup fs.inodes
                        (joinPath fiA.base_path ne.relative_path)
                          = some ne.stat_inode
                      rw [hbaseA]
                      exact hiN
                    · intro hh hx
                      have hx' : fastHash c0 = hh := Option.some.inj hx
                      rw [← hx']
                    · intro k ek hh hk hsz2 hfh2 hfk2
                      by_cases hkE : k = idxE
                      · subst hkE
                        rw [entFE] at hk
                        cases hk
                        have h1 : fastHash cE = hh := Option.some.inj hfk2
                        have h2 : fastHash c0 = hh := Option.some.inj hfh2
                        exact absurd (fastHash_inj cE c0 hlen hbcE hbc0
                          (by rw [h1, ← h2])) hNe
                      · rw [entOE k hkE] at hk
                        have hsz2' : ne.stat_size = ek.stat_size := hsz2
                        obtain ⟨b, hb, hkb⟩ := hI.size_compl k ek hk
                        rw [← hsz2', hbv] at hb
                        cases hb
                        have hki : k = i := List.mem_singleton.mp hkb
                        exact absurd (hki.trans hiE.symm) hkE
        | i :: j2 :: rest =>
          simp only [hino1, hbv, Option.isSome_some, not_true, Bool.false_eq_true,
            if_false, if_true, Option.getD_some] at h
          cases hhf : hash_file fs (ne.absolute_path fi.base_path) with
          | error e2 => simp only [hhf] at h; exact absurd h (by simp)
          | ok hsh =>
            simp only [hhf] at h
            have hshv : hsh = fastHash c0 := by
              simp only [hash_file, hopN, Except.ok.injEq] at hhf
              exact hhf.symm
            rcases try_candidates_cases fs fi { ne with fast_hash := some hsh }
                fs1 fi1 e1 (i :: j2 :: rest) h with
              ⟨hall, hfseq, hup⟩ | ⟨k, E2, r, hk, hgE2, hcmpk, hlink⟩
            · subst hfseq
              refine Inv_update fs1 fi { ne with fast_hash := some hsh } fi1 e1 hI
                hn1 hn2 ⟨c0, hcN, hiN, hsz0, ?_⟩ ?_ hup
              · intro hh hx
                have hx' : hsh = hh := Option.some.inj hx
                rw [← hx']
                exact hshv
              · intro k ek hh hk hsz2 hfh2 hfk2
                have hsz2' : ne.stat_size = ek.stat_size := hsz2
                obtain ⟨b, hb, hkb⟩ := hI.size_compl k ek hk
                rw [← hsz2', hbv] at hb
                cases hb
                obtain ⟨E2, r2, hgE2, hcmp2⟩ := hall k hkb
                rw [hk] at hgE2
                have hE2 : E2 = ek := Option.some.inj hgE2.symm
                subst hE2
                obtain ⟨cek, hcekf, -, hceks, hcekh⟩ := hI.sync k E2 hk
                have hopk : fs1.openFile (E2.absolute_path fi.base_path)
                    = Except.ok cek :=
                  TestFs.openFile_of_lookup fs1 _ cek hcekf
                have hspec := compare_files_sc fs1 fi E2
                  { ne with fast_hash := some hsh } cek c0 hopk hopN
                rw [hspec] at hcmp2
                by_cases hce : cek = c0
                · rw [if_pos hce] at hcmp2
                  simp at hcmp2
                · have hbek : ∀ b ∈ cek, b < 256 :=
                    fun b hb => hI.bytes _ (mem_alookup _ _ _ hcekf) b hb
                  have hlenk : cek.length = c0.length := by
                    rw [← hceks, ← hsz0]
                    exact hsz2'.symm
                  have hhk : hh = fastHash cek := hcekh hh hfk2
                  have hhn : hsh = hh := Option.some.inj hfh2
                  exact absurd (fastHash_inj cek c0 hlenk hbek hbc0
                    (by rw [← hhk, ← hhn]; exact hshv)) hce
            · obtain ⟨cE2, hcE2f, -, hcE2s, -⟩ := hI.sync k E2 hgE2
              have hopk : fs.openFile (E2.absolute_path fi.base_path)
                  = Except.ok cE2 :=
                TestFs.openFile_of_lookup fs _ cE2 hcE2f
              have hspec := compare_files_sc fs fi E2
                { ne with fast_hash := some hsh } cE2 c0 hopk hopN
              rw [hspec] at hcmpk
              by_cases hce : cE2 = c0
              · refine Inv_link fs fi E2 { ne with fast_hash := some hsh } k
                  fs1 fi1 e1 hsh c0 hI hgE2 hn1 hn2 rfl hshv ?_ hlink
                rw [← hce]
                exact hcE2f
              · rw [if_neg hce] at hcmpk
                simp at hcmpk
      · simp only [hino1, hsz1, Bool.false_eq_true, if_false, not_false_iff,
          if_true] at h
        cases hup : update_file_entry fi ne with
        | error e2 => simp only [hup] at h; exact absurd h (by simp)
        | ok pr =>
          obtain ⟨fi2, st⟩ := pr
          simp only [hup] at h
          simp only [Prod.mk.injEq, Except.ok.injEq] at h
          obtain ⟨hq1, hq2, hq3⟩ := h
          subst hq1; subst hq2; subst hq3
          exact Inv_update fs fi ne fi2 st hI hn1 hn2 hsyncN
            (fun k ek hh _ _ hfh _ => absurd (hfh0 ▸ hfh) (by simp)) hup

/-- The invariant survives any successful admission sequence over relative
non-`.backup`-shaped paths. -/
theorem run_adds_inv (paths : List (List Nat)) :
    ∀ fs fi fs1 fi1, Inv fs fi →
      (∀ q ∈ paths, hasRoot q = false ∧ backupSuffix.isSuffixOf q = false) →
      run_adds fs fi paths = (fs1, fi1, true) → Inv fs1 fi1 := by
  induction paths with
  | nil =>
    intro fs fi fs1 fi1 hI _ h
    unfold run_adds at h
    simp only [Prod.mk.injEq] at h
    obtain ⟨h1, h2, -⟩ := h
    rw [← h1, ← h2]
    exact hI
  | cons q qs ih =>
    intro fs fi fs1 fi1 hI hq h
    unfold run_adds at h
    rcases ha : add_file fs fi q with ⟨fs', fi', r⟩
    cases r with
    | ok e =>
      simp only [ha] at h
      exact ih fs' fi' fs1 fi1
        (add_file_inv fs fi q fs' fi' e hI (hq q (List.mem_cons_self _ _)).1
          (hq q (List.mem_cons_self _ _)).2 ha)
        (fun q2 hq2 => hq q2 (List.mem_cons_of_mem _ hq2)) h
    | error e =>
      simp only [ha] at h
      exact absurd h (by simp)

/-! ## The claims -/

section Claims

open Instances FilesIndex

/-- C1: refuted as stated.  Over the in-memory FA holding two already
hard-linked names of one inode, both `add_file` calls succeed, yet the audit
routine does not pass afterwards: the second name enters through the
"inode already known" branch without a hash, so the two slots of the shared
size bucket violate the audit's hashing obligation (and, had a sibling hash
existed, its coherence check).  The admission code drops the sibling-hash
copying that both §4.3 case 2 and the in-source commented-out draft
`add_file_if_trivial_unique` prescribe, so the code contradicts its own audit
assertions on a reachable state. -/
theorem c1_audit_fails_after_successful_admissions :
    c1run.2.2 = true ∧ sanity_check c1run.2.1 = false := by
  constructor
  · decide
  · decide

/-- C2: refuted as stated.  Admitting `a` (stored unhashed), then `c` (a
same-size distinct file: `a` and `c` both receive digests), then `b` (a second
name of `a`'s inode): the claim says `b`'s stored entry carries the hash
copied from its sibling slot `a`, but the stored entry for `b` has
`fast_hash = none` while the sibling `a` holds the digest of `[7, 8]`. -/
theorem c2_sibling_hash_not_copied :
    c2run.2.2 = true ∧
    get_by_relative_path c2run.2.1 nmB = some ⟨nmB, none, 2, 0, 0, 0, 1⟩ ∧
    (get_by_relative_path c2run.2.1 nmA).map FileEntry.fast_hash =
      some (some (fastHash [7, 8])) := by
  refine ⟨by decide, by decide, by decide⟩

/-- C3: refuted as stated.  When the transaction's `hard_link` step fails
after the initial rename (here: the existing entry's path is absent from the
tree), the error is surfaced with the bytes still parked at the `.backup`
sibling and nothing at the original name — no rename-back happens (the
source marks the rollback as an unimplemented TODO). -/
theorem c3_failed_link_leaves_backup_in_place :
    c3run.2.2 = Except.error Err.notFound ∧
    alookup c3run.1.filedata (base ++ [110]) = none ∧
    alookup c3run.1.filedata (base ++ [110] ++ backupSuffix) = some [1] := by
  refine ⟨by decide, by decide, by decide⟩

/-- C4: refuted as stated.  Every mutator of the read-only FA does return the
read-only error (first four conjuncts), but the link transaction is *not*
short-circuited in dry-run: admitting a confirmed duplicate over the
read-only FA reaches the transaction's rename and fails with the read-only
error instead of succeeding as a no-op. -/
theorem c4_dry_run_duplicate_fails :
    (c4fs.write_to_file t1 []).2 = Except.error Err.readOnlyFs ∧
    (c4fs.hard_link (base ++ t1) (base ++ t2)).2 = Except.error Err.readOnlyFs ∧
    (c4fs.remove_file (base ++ t1)).2 = Except.error Err.readOnlyFs ∧
    (c4fs.rename (base ++ t1) (base ++ t2)).2 = Except.error Err.readOnlyFs ∧
    (c4run1.2.2).isOk = true ∧
    c4run2.2.2 = Except.error Err.readOnlyFs := by
  refine ⟨by decide, by decide, by decide, by decide, by decide, by decide⟩

/-- C5: counterexample to the full-mode digest guarantee.  Comparing the
empty stream with the one-byte stream `[1]` in full mode stops as soon as
stream 1 is exhausted: it reports digest `0` for stream 2, although stream 2's
entire content `[1]` has digest `fastHash [1] = 1 ≠ 0` and stream 2 was never
consumed to end-of-file. -/
theorem c5_full_mode_digest_counterexample :
    compare_files c5fs (FilesIndex.new base) c5e1 c5e2 false =
      Except.ok (false, some (0, 0)) ∧
    c5fs.openFile (c5e2.absolute_path base) = Except.ok [1] ∧
    fastHash [1] ≠ 0 := by
  refine ⟨by decide, by decide, by decide⟩

/-- C5 (amended): for streams `c1`, `c2`, short-circuit mode returns
not-equal with no digests whenever the streams differ, and equal with both
full digests when they are identical; full mode — on streams of *equal
length* (the only way the admission algorithm invokes it) — consumes both
streams and returns each stream's entire-content digest together with the
equality verdict. -/
theorem c5_comparator_behaviour (fs : TestFs) (fi : FilesIndex)
    (e1 e2 : FileEntry) (c1 c2 : List Nat)
    (h1 : fs.openFile (e1.absolute_path fi.base_path) = Except.ok c1)
    (h2 : fs.openFile (e2.absolute_path fi.base_path) = Except.ok c2) :
    (c1 ≠ c2 → compare_files fs fi e1 e2 true = Except.ok (false, none)) ∧
    (c1 = c2 →
      compare_files fs fi e1 e2 true =
        Except.ok (true, some (fastHash c1, fastHash c2))) ∧
    (c1.length = c2.length →
      compare_files fs fi e1 e2 false =
        Except.ok (decide (c1 = c2), some (fastHash c1, fastHash c2))) := by
  have hopen : compare_files fs fi e1 e2 true =
      Except.ok (compare_chunks true c1 c2 0 0 true) := by
    simp only [compare_files, h1, h2]
    rfl
  have hopen' : compare_files fs fi e1 e2 false =
      Except.ok (compare_chunks false c1 c2 0 0 true) := by
    simp only [compare_files, h1, h2]
    rfl
  refine ⟨?_, ?_, ?_⟩
  · intro hne
    rw [hopen]
    unfold compare_chunks
    rw [compareLoop_sc (c1.length + 1) c1 c2 0 0 true (by omega), if_neg hne]
  · intro heq
    rw [hopen]
    unfold compare_chunks
    rw [compareLoop_sc (c1.length + 1) c1 c2 0 0 true (by omega), if_pos heq]
    rfl
  · intro hlen
    rw [hopen']
    unfold compare_chunks
    rw [compareLoop_full (c1.length + 1) c1 c2 0 0 true (by omega) hlen]
    rfl

/-- Witness for the amended C5 theorem at the concrete streams `[]`, `[1]`. -/
theorem c5_comparator_behaviour_witness :
    compare_files c5fs (FilesIndex.new base) c5e1 c5e2 true =
      Except.ok (false, none) :=
  (c5_comparator_behaviour c5fs (FilesIndex.new base) c5e1 c5e2 [] [1]
    (by decide) (by decide)).1 (by decide)

/-- C6: counterexample to idempotence as stated.  Over `c6fs` — working
directory `/b/s/`, index base `/b/` — admitting `f` succeeds twice, the
filesystem is identical before the second call, yet the second call appends a
third entry instead of leaving the index unchanged: the link transaction
re-canonicalized the base-relative name `s/f` against the working directory
and stored the first entry under `s/s/f`. -/
theorem c6_idempotence_counterexample :
    sanity_check c6fi = true ∧
    c6run1.2.2.isOk = true ∧ c6run2.2.2.isOk = true ∧
    c6run2.1 = c6run1.1 ∧
    c6run1.2.1.entries.length = 2 ∧ c6run2.2.1.entries.length = 3 ∧
    c6run2.2.1 ≠ c6run1.2.1 := by
  refine ⟨by decide, by decide, by decide, by decide, by decide, by decide,
    by decide⟩

/-- C6 (amended): over the in-memory FA, with the working directory pinned to
the index's `/`-terminated base path (as `run_for_folder` establishes), a
relative admission path, duplicate-free filesystem tables, and no indexed
entry occupying the admission path's `.backup` sibling name, a successful
`add_file p` is idempotent: repeating the call changes neither the filesystem
nor the index and returns exactly the entry the first call stored.  As
stated — over an arbitrary working directory — the claim is refuted by
`c6_idempotence_counterexample`: the transaction's re-stat canonicalizes the
entry's base-relative name against the working directory, so with
`cwd ≠ base` the first call stores a different relative name and the second
call appends a fresh slot instead of short-circuiting. -/
theorem c6_admission_idempotent (fs : TestFs) (fi : FilesIndex) (p : List Nat)
    (fs1 : TestFs) (fi1 : FilesIndex) (e1 : FileEntry)
    (hp : hasRoot p = false)
    (hcwd : fs.cwd = fi.base_path)
    (hbase : fi.base_path.getLastD 0 = 47)
    (hndF : (fs.filedata.map Prod.fst).Nodup)
    (hndI : (fs.inodes.map Prod.fst).Nodup)
    (hbknm : ∀ i E, fi.entries.get? i = some E →
      E.relative_path ≠ withFileName p (fileName p ++ backupSuffix))
    (h : add_file fs fi p = (fs1, fi1, Except.ok e1)) :
    add_file fs1 fi1 p = (fs1, fi1, Except.ok e1) := by
  unfold add_file at h
  cases hne : FileEntry.new fs fi.base_path p with
  | error e0 => simp only [hne] at h; exact absurd h (by simp)
  | ok ne =>
    simp only [hne] at h
    obtain ⟨c0, hs0, hc0, hi0, hfh0, hsz0, -, -, -⟩ :=
      fileEntry_new_ok fs fi.base_path p ne hne
    have hcan : fs.canonicalize p = joinPath fi.base_path p := by
      unfold TestFs.canonicalize
      rw [if_neg (by simp [hp]), hcwd]
    have hrelp : ne.relative_path = p := by
      rw [hcan, joinPath_slash _ _ hbase, stripPrefix_join] at hs0
      exact (Option.some.inj hs0).symm
    by_cases hino1 : (alookup fi.by_inode ne.stat_inode).isSome
    · simp only [hino1, if_true] at h
      cases hup : update_file_entry fi ne with
      | error e2 => simp only [hup] at h; exact absurd h (by simp)
      | ok pr =>
        obtain ⟨fi2, st⟩ := pr
        simp only [hup] at h
        simp only [Prod.mk.injEq, Except.ok.injEq] at h
        obtain ⟨hq1, hq2, hq3⟩ := h
        subst hq1; subst hq2; subst hq3
        obtain ⟨hbase2, hdisj⟩ := update_file_entry_ok fi ne fi2 st hup
        cases hdisj with
        | inl hsc =>
          obtain ⟨hfieq, heqx, -, idx, hlook, hgetidx⟩ := hsc
          subst hfieq
          exact add_file_short fs fi2 p ne idx st hne hino1 hlook hgetidx heqx
        | inr hstored =>
          obtain ⟨hstne, idx, hlook, hget, hbyino, -⟩ := hstored
          subst hstne
          exact add_file_short fs fi2 p st idx st (by rw [hbase2]; exact hne)
            hbyino hlook hget (eq_except_hash_update st st.fast_hash st.fast_hash)
    · by_cases hsz1 : (alookup fi.by_size ne.stat_size).isSome
      · obtain ⟨bucket, hbv⟩ := Option.isSome_iff_exists.mp hsz1
        match hbkt : bucket with
        | [] =>
          simp only [hino1, hbv, Option.isSome_some, not_true, Bool.false_eq_true,
            if_false, if_true, Option.getD_some] at h
          cases hhf : hash_file fs (ne.absolute_path fi.base_path) with
          | error e2 => simp only [hhf] at h; exact absurd h (by simp)
          | ok hsh =>
            simp only [hhf] at h
            rcases try_candidates_ok fs fi { ne with fast_hash := some hsh }
                fs1 fi1 e1 [] h with ⟨hfseq, hup⟩ | ⟨k, E, hk, -, -⟩
            · subst hfseq
              obtain ⟨hbase2, hdisj⟩ :=
                update_file_entry_ok fi { ne with fast_hash := some hsh } fi1 e1 hup
              cases hdisj with
              | inl hsc =>
                obtain ⟨-, -, hnone, -⟩ := hsc
                exact absurd hnone (by simp)
              | inr hstored =>
                obtain ⟨hste, idx, hlook, hget, hbyino, -⟩ := hstored
                subst hste
                exact add_file_short fs1 fi1 p ne idx { ne with fast_hash := some hsh }
                  (by rw [hbase2]; exact hne) hbyino hlook hget
                  (eq_except_hash_update ne ne.fast_hash (some hsh))
            · cases hk
        | [i] =>
          simp only [hino1, hbv, Option.isSome_some, not_true, Bool.false_eq_true,
            if_false, if_true, Option.getD_some] at h
          cases hgE : fi.entries.get? i with
          | none => simp only [hgE] at h; exact absurd h (by simp)
          | some E =>
            simp only [hgE] at h
            cases hcmp : compare_files fs fi E ne false with
            | error e2 => simp only [hcmp] at h; exact absurd h (by simp)
            | ok r =>
              obtain ⟨eqb, d⟩ := r
              cases d with
              | none => simp only [hcmp] at h; exact absurd h (by simp)
              | some dd =>
                obtain ⟨d1, d2⟩ := dd
                cases hupE : update_file_entry fi { E with fast_hash := some d1 } with
                | error e2 => simp only [hcmp, hupE] at h; exact absurd h (by simp)
                | ok prA =>
                  obtain ⟨fiA, EA⟩ := prA
                  obtain ⟨hbaseA, -⟩ :=
                    update_file_entry_ok fi { E with fast_hash := some d1 } fiA EA hupE
                  cases eqb with
                  | true =>
                    simp only [hcmp, hupE, eq_self_iff_true, if_true] at h
                    have hexn : ({ E with fast_hash := some d1 } : FileEntry).relative_path
                        ≠ withFileName
                          ({ ne with fast_hash := some d2 } : FileEntry).relative_path
                          (fileName
                            ({ ne with fast_hash := some d2 } : FileEntry).relative_path
                            ++ backupSuffix) := by
                      have hx := hbknm i E hgE
                      rw [← hrelp] at hx
                      exact hx
                    obtain ⟨hgcwd, hgro, hgndF, hgndI, hgbase, hgrel, hgfh, hgino,
                      hgsz, hgnew, ⟨idx, hglook, hgget⟩, hgbyino, hgfA, hgiA, hgbkA,
                      hgframe, -, -, -, -⟩ :=
                      hard_link_and_insert_ok fs fiA { E with fast_hash := some d1 }
                        { ne with fast_hash := some d2 } fs1 fi1 e1
                        rfl
                        (by show hasRoot ne.relative_path = false
                            rw [hrelp]; exact hp)
                        (by rw [hbaseA]; exact hcwd)
                        (by rw [hbaseA]; exact hbase)
                        hndF hndI hexn h
                    have hne2 : FileEntry.new fs1 fi1.base_path p =
                        Except.ok { e1 with fast_hash := none } := by
                      rw [hgbase, ← hrelp]
                      exact hgnew
                    exact add_file_short fs1 fi1 p { e1 with fast_hash := none } idx e1
                      hne2 hgbyino hglook hgget
                      (eq_except_hash_update e1 none e1.fast_hash)
                  | false =>
                    simp only [hcmp, hupE, Bool.false_eq_true, if_false] at h
                    cases hup2 : update_file_entry fiA { ne with fast_hash := some d2 }
                        with
                    | error e2 => simp only [hup2] at h; exact absurd h (by simp)
                    | ok prB =>
                      obtain ⟨fiB, st⟩ := prB
                      simp only [hup2] at h
                      simp only [Prod.mk.injEq, Except.ok.injEq] at h
                      obtain ⟨hq1, hq2, hq3⟩ := h
                      subst hq1; subst hq2; subst hq3
                      obtain ⟨hbaseB, hdisj⟩ :=
                        update_file_entry_ok fiA { ne with fast_hash := some d2 }
                          fiB st hup2
                      cases hdisj with
                      | inl hsc =>
                        obtain ⟨-, -, hnone, -⟩ := hsc
                        exact absurd hnone (by simp)
                      | inr hstored =>
                        obtain ⟨hstne, idx, hlook, hget, hbyino, -⟩ := hstored
                        subst hstne
                        exact add_file_short fs fiB p ne idx
                          { ne with fast_hash := some d2 }
                          (by rw [hbaseB, hbaseA]; exact hne) hbyino hlook hget
                          (eq_except_hash_update ne ne.fast_hash (some d2))
        | i :: j :: rest =>
          simp only [hino1, hbv, Option.isSome_some, not_true, Bool.false_eq_true,
            if_false, if_true, Option.getD_some] at h
          cases hhf : hash_file fs (ne.absolute_path fi.base_path) with
          | error e2 => simp only [hhf] at h; exact absurd h (by simp)
          | ok hsh =>
            simp only [hhf] at h
            rcases try_candidates_ok fs fi { ne with fast_hash := some hsh }
                fs1 fi1 e1 (i :: j :: rest) h with
              ⟨hfseq, hup⟩ | ⟨k, E, hk, hgE, hlink⟩
            · subst hfseq
              obtain ⟨hbase2, hdisj⟩ :=
                update_file_entry_ok fi { ne with fast_hash := some hsh } fi1 e1 hup
              cases hdisj with
              | inl hsc =>
                obtain ⟨-, -, hnone, -⟩ := hsc
                exact absurd hnone (by simp)
              | inr hstored =>
                obtain ⟨hste, idx, hlook, hget, hbyino, -⟩ := hstored
                subst hste
                exact add_file_short fs1 fi1 p ne idx { ne with fast_hash := some hsh }
                  (by rw [hbase2]; exact hne) hbyino hlook hget
                  (eq_except_hash_update ne ne.fast_hash (some hsh))
            · have hexn : (E : FileEntry).relative_path
                  ≠ withFileName
                    ({ ne with fast_hash := some hsh } : FileEntry).relative_path
                    (fileName
                      ({ ne with fast_hash := some hsh } : FileEntry).relative_path
                      ++ backupSuffix) := by
                have hx := hbknm k E hgE
                rw [← hrelp] at hx
                exact hx
              obtain ⟨hgcwd, hgro, hgndF, hgndI, hgbase, hgrel, hgfh, hgino,
                hgsz, hgnew, ⟨idx, hglook, hgget⟩, hgbyino, hgfA, hgiA, hgbkA,
                hgframe, -, -, -, -⟩ :=
                hard_link_and_insert_ok fs fi E { ne with fast_hash := some hsh }
                  fs1 fi1 e1
                  rfl
                  (by show hasRoot ne.relative_path = false
                      rw [hrelp]; exact hp)
                  hcwd hbase hndF hndI hexn hlink
              have hne2 : FileEntry.new fs1 fi1.base_path p =
                  Except.ok { e1 with fast_hash := none } := by
                rw [hgbase, ← hrelp]
                exact hgnew
              exact add_file_short fs1 fi1 p { e1 with fast_hash := none } idx e1
                hne2 hgbyino hglook hgget
                (eq_except_hash_update e1 none e1.fast_hash)
      · have hinoF : (alookup fi.by_inode ne.stat_inode).isSome = false := by
          simpa using hino1
        have hszF : (alookup fi.by_size ne.stat_size).isSome = false := by
          simpa using hsz1
        simp only [hino1, hsz1, Bool.false_eq_true, if_false, not_false_iff,
          if_true] at h
        cases hup : update_file_entry fi ne with
        | error e2 => simp only [hup] at h; exact absurd h (by simp)
        | ok pr =>
          obtain ⟨fi2, st⟩ := pr
          simp only [hup] at h
          simp only [Prod.mk.injEq, Except.ok.injEq] at h
          obtain ⟨hq1, hq2, hq3⟩ := h
          subst hq1; subst hq2; subst hq3
          obtain ⟨hbase2, hdisj⟩ := update_file_entry_ok fi ne fi2 st hup
          cases hdisj with
          | inl hsc =>
            obtain ⟨hfieq, heqx, -, idx, hlook, hgetidx⟩ := hsc
            subst hfieq
            exact add_file_unique_short fs fi2 fi2 p ne st hne hinoF hszF hup
          | inr hstored =>
            obtain ⟨hstne, idx, hlook, hget, hbyino, -⟩ := hstored
            subst hstne
            exact add_file_short fs fi2 p st idx st (by rw [hbase2]; exact hne)
              hbyino hlook hget (eq_except_hash_update st st.fast_hash st.fast_hash)

/-- Witness for the amended C6 theorem: admitting `t1` over `linkedFs` into a
fresh index stores `c6wE` yielding `c6wfi`; the repeated call is the
identity. -/
theorem c6_admission_idempotent_witness :
    add_file linkedFs c6wfi t1 = (linkedFs, c6wfi, Except.ok c6wE) :=
  c6_admission_idempotent linkedFs (FilesIndex.new base) t1 linkedFs c6wfi c6wE
    (by decide) (by decide) (by decide) (by decide) (by decide)
    (fun i E hg => absurd hg (by simp [FilesIndex.new]))
    (by decide)

/-- C8: after any sequence of successful admissions into a fresh index over
the in-memory FA — with the working directory pinned to the `/`-terminated
base path, duplicate-free tables, byte-valued contents, and relative
non-`.backup`-shaped admission paths — any two entries of the resulting
index with equal size and the same present hash carry the same inode:
successful linking collapses inodes, and by the digest contract
(`fastHash_inj`) such entries describe byte-identical files. -/
theorem c8_inode_equivalence (fs0 : TestFs) (bp : List Nat)
    (paths : List (List Nat)) (fs1 : TestFs) (fi1 : FilesIndex)
    (hbp : bp.getLastD 0 = 47) (hcwd : fs0.cwd = bp)
    (hndF : (fs0.filedata.map Prod.fst).Nodup)
    (hndI : (fs0.inodes.map Prod.fst).Nodup)
    (hbytes : ∀ pc ∈ fs0.filedata, ∀ b ∈ pc.2, b < 256)
    (hpaths : ∀ q ∈ paths, hasRoot q = false ∧
      backupSuffix.isSuffixOf q = false)
    (hrun : run_adds fs0 (FilesIndex.new bp) paths = (fs1, fi1, true)) :
    ∀ j k ej ek hh, fi1.entries.get? j = some ej →
      fi1.entries.get? k = some ek → ej.stat_size = ek.stat_size →
      ej.fast_hash = some hh → ek.fast_hash = some hh →
      ej.stat_inode = ek.stat_inode := by
  have hI0 : Inv fs0 (FilesIndex.new bp) := by
    refine ⟨hbp, hcwd, hndF, hndI, hbytes, ?_, ?_, ?_, ?_, ?_, ?_, ?_⟩
    · intro j e hj
      rw [List.get?_eq_none.mpr (Nat.zero_le j)] at hj
      cases hj
    · intro j e hj
      rw [List.get?_eq_none.mpr (Nat.zero_le j)] at hj
      cases hj
    · intro j e hj
      rw [List.get?_eq_none.mpr (Nat.zero_le j)] at hj
      cases hj
    · intro j e hj
      rw [List.get?_eq_none.mpr (Nat.zero_le j)] at hj
      cases hj
    · intro s b hb
      simp [FilesIndex.new, alookup] at hb
    · intro s b hb
      simp [FilesIndex.new, alookup] at hb
    · intro j k ej ek hh hj
      rw [List.get?_eq_none.mpr (Nat.zero_le j)] at hj
      cases hj
  exact (run_adds_inv paths fs0 (FilesIndex.new bp) fs1 fi1 hI0 hpaths hrun).dedup

/-- Witness for C8: admitting `a` then its duplicate `b` over `c9fs` yields
the index `c9fi1` whose two entries share size `2` and hash `1800`; the
theorem forces their inodes equal (both are `1`). -/
theorem c8_inode_equivalence_witness :
    (⟨nmA, some 1800, 2, 0, 0, 0, 1⟩ : FileEntry).stat_inode
      = (⟨nmB, some 1800, 2, 0, 0, 0, 1⟩ : FileEntry).stat_inode :=
  c8_inode_equivalence c9fs base [nmA, nmB] c9fs1 c9fi1 (by decide) (by decide)
    (by decide) (by decide) (by decide) (by decide) (by decide)
    0 1 ⟨nmA, some 1800, 2, 0, 0, 0, 1⟩ ⟨nmB, some 1800, 2, 0, 0, 0, 1⟩ 1800
    (by decide) (by decide) (by decide) (by decide) (by decide)

/-- C9: when exactly one indexed candidate shares the admitted file's size
and the full-mode comparison finds the contents equal, the digest pair is
attached to both entries — the candidate's slot through an index upsert, the
new entry on the returned FE — the link transaction runs and succeeds, and
the returned entry carries the candidate's inode (its name sharing the
candidate file's on-disk inode), with the `.backup` sibling absent.  Stated
over a working directory pinned to the `/`-terminated base, a relative
admission path, duplicate-free tables, and a candidate not occupying the
`.backup` sibling name. -/
theorem c9_single_candidate_duplicate_admission
    (fs : TestFs) (fi : FilesIndex) (p : List Nat)
    (fs1 : TestFs) (fi1 : FilesIndex) (e1 : FileEntry)
    (ne E : FileEntry) (i : Nat) (d1 d2 : Nat)
    (hp : hasRoot p = false)
    (hcwd : fs.cwd = fi.base_path)
    (hbase : fi.base_path.getLastD 0 = 47)
    (hndF : (fs.filedata.map Prod.fst).Nodup)
    (hndI : (fs.inodes.map Prod.fst).Nodup)
    (hne : FileEntry.new fs fi.base_path p = Except.ok ne)
    (hinoF : (alookup fi.by_inode ne.stat_inode).isSome = false)
    (hbv : alookup fi.by_size ne.stat_size = some [i])
    (hgE : fi.entries.get? i = some E)
    (hcmp : compare_files fs fi E ne false = Except.ok (true, some (d1, d2)))
    (hexn : E.relative_path ≠ withFileName p (fileName p ++ backupSuffix))
    (h : add_file fs fi p = (fs1, fi1, Except.ok e1)) :
    (∃ fiA EA, update_file_entry fi { E with fast_hash := some d1 }
        = Except.ok (fiA, EA) ∧
      hard_link_and_insert fs fiA { E with fast_hash := some d1 }
        { ne with fast_hash := some d2 } = (fs1, fi1, Except.ok e1)) ∧
    e1.fast_hash = some d2 ∧
    e1.relative_path = p ∧
    e1.stat_inode = E.stat_inode ∧ e1.stat_size = E.stat_size ∧
    alookup fs1.filedata (joinPath fi.base_path
      (withFileName p (fileName p ++ backupSuffix))) = none ∧
    alookup fs1.inodes (joinPath fi.base_path p) =
      alookup fs.inodes (E.absolute_path fi.base_path) ∧
    alookup fs1.filedata (joinPath fi.base_path p) =
      alookup fs.filedata (E.absolute_path fi.base_path) ∧
    (∃ idx, alookup fi1.by_relative_path p = some idx ∧
      fi1.entries.get? idx = some e1) := by
  unfold add_file at h
  simp only [hne] at h
  obtain ⟨c0, hs0, -, -, -, -, -, -, -⟩ := fileEntry_new_ok fs fi.base_path p ne hne
  have hcan : fs.canonicalize p = joinPath fi.base_path p := by
    unfold TestFs.canonicalize
    rw [if_neg (by simp [hp]), hcwd]
  have hrelp : ne.relative_path = p := by
    rw [hcan, joinPath_slash _ _ hbase, stripPrefix_join] at hs0
    exact (Option.some.inj hs0).symm
  simp only [hinoF, hbv, Option.isSome_some, not_true, Bool.false_eq_true,
    if_false, if_true, Option.getD_some, hgE, hcmp] at h
  cases hupE : update_file_entry fi { E with fast_hash := some d1 } with
  | error e2 => simp only [hupE] at h; exact absurd h (by simp)
  | ok prA =>
    obtain ⟨fiA, EA⟩ := prA
    simp only [hupE, eq_self_iff_true, if_true] at h
    obtain ⟨hbaseA, -⟩ :=
      update_file_entry_ok fi { E with fast_hash := some d1 } fiA EA hupE
    have hexn' : ({ E with fast_hash := some d1 } : FileEntry).relative_path
        ≠ withFileName ({ ne with fast_hash := some d2 } : FileEntry).relative_path
          (fileName ({ ne with fast_hash := some d2 } : FileEntry).relative_path
            ++ backupSuffix) := by
      have hx := hexn
      rw [← hrelp] at hx
      exact hx
    obtain ⟨hgcwd, hgro, hgndF, hgndI, hgbase, hgrel, hgfh, hgino, hgsz, hgnew,
      ⟨idx, hglook, hgget⟩, hgbyino, hgfA, hgiA, hgbkA, hgframe, -, -, -, -⟩ :=
      hard_link_and_insert_ok fs fiA { E with fast_hash := some d1 }
        { ne with fast_hash := some d2 } fs1 fi1 e1
        rfl
        (by show hasRoot ne.relative_path = false
            rw [hrelp]; exact hp)
        (by rw [hbaseA]; exact hcwd)
        (by rw [hbaseA]; exact hbase)
        hndF hndI hexn' h
    have hrel1 : e1.relative_path = p := hgrel.trans hrelp
    refine ⟨⟨fiA, EA, rfl, h⟩, hgfh, hrel1, hgino, hgsz, ?_, ?_, ?_,
      idx, ?_, hgget⟩
    · rw [← hrelp, ← hbaseA]; exact hgbkA
    · rw [← hrelp, ← hbaseA]; exact hgiA
    · rw [← hrelp, ← hbaseA]; exact hgfA
    · rw [← hrel1]; exact hglook

/-- Witness for C9 at the concrete single-candidate duplicate `b` of `a`. -/
theorem c9_single_candidate_duplicate_admission_witness :
    (∃ fiA EA, update_file_entry c9fi { c9E with fast_hash := some 1800 }
        = Except.ok (fiA, EA) ∧
      hard_link_and_insert c9fs fiA { c9E with fast_hash := some 1800 }
        { c9ne with fast_hash := some 1800 } = (c9fs1, c9fi1, Except.ok c9stored)) ∧
    c9stored.fast_hash = some 1800 ∧
    c9stored.relative_path = nmB ∧
    c9stored.stat_inode = c9E.stat_inode ∧ c9stored.stat_size = c9E.stat_size ∧
    alookup c9fs1.filedata (joinPath base
      (withFileName nmB (fileName nmB ++ backupSuffix))) = none ∧
    alookup c9fs1.inodes (joinPath base nmB) =
      alookup c9fs.inodes (c9E.absolute_path base) ∧
    alookup c9fs1.filedata (joinPath base nmB) =
      alookup c9fs.filedata (c9E.absolute_path base) ∧
    (∃ idx, alookup c9fi1.by_relative_path nmB = some idx ∧
      c9fi1.entries.get? idx = some c9stored) :=
  c9_single_candidate_duplicate_admission c9fs c9fi nmB c9fs1 c9fi1 c9stored
    c9ne c9E 0 1800 1800 (by decide) (by decide) (by decide) (by decide)
    (by decide) (by decide) (by decide) (by decide) (by decide) (by decide)
    (by decide) (by decide)

/-- C10: every admission that does not confirm a duplicate — the inode is
already known, the size has no bucket, the single same-size candidate
compares unequal, or no candidate of the size bucket compares equal — leaves
the filesystem state reachable through the FA unchanged (including the ghost
mutator log: no FA mutator is invoked). -/
theorem c10_non_duplicate_admission_frame
    (fs : TestFs) (fi : FilesIndex) (p : List Nat) (ne : FileEntry)
    (hne : FileEntry.new fs fi.base_path p = Except.ok ne)
    (hcase :
      (alookup fi.by_inode ne.stat_inode).isSome = true ∨
      (alookup fi.by_size ne.stat_size).isSome = false ∨
      (∃ i E d, (alookup fi.by_size ne.stat_size).getD [] = [i] ∧
        fi.entries.get? i = some E ∧
        compare_files fs fi E ne false = Except.ok (false, d)) ∨
      (((alookup fi.by_size ne.stat_size).getD []).length ≠ 1 ∧
        (∀ i ∈ (alookup fi.by_size ne.stat_size).getD [], ∀ E,
          fi.entries.get? i = some E →
          ∀ r, compare_files fs fi E ne true = Except.ok r → r.1 = false))) :
    (add_file fs fi p).1 = fs := by
  by_cases hA : (alookup fi.by_inode ne.stat_inode).isSome
  · simp only [add_file, hne, hA, if_true]
    cases update_file_entry fi ne with
    | error e => rfl
    | ok q => obtain ⟨fi', e'⟩ := q; rfl
  · by_cases hB : (alookup fi.by_size ne.stat_size).isSome
    · obtain ⟨bucket, hbv⟩ := Option.isSome_iff_exists.mp hB
      have hgetD : (alookup fi.by_size ne.stat_size).getD [] = bucket := by
        rw [hbv]; rfl
      match hbk : bucket with
      | [] =>
        simp only [add_file, hne, hA, hbv, Option.isSome_some, not_true,
          Bool.false_eq_true, if_false, if_true, Option.getD_some]
        cases hash_file fs (ne.absolute_path fi.base_path) with
        | error e => rfl
        | ok hsh =>
          exact try_candidates_fst fs fi _ [] (by intro k hk; cases hk)
      | [i] =>
        rcases hcase with hA' | hB' | hD3 | hD4
        · exact absurd hA' hA
        · simp [hB'] at hB
        · obtain ⟨i', E', d', hbk', hget', hcmp'⟩ := hD3
          rw [hgetD] at hbk'
          injection hbk' with hii _
          subst hii
          simp only [add_file, hne, hA, hbv, Option.isSome_some, not_true,
            Bool.false_eq_true, if_false, if_true, Option.getD_some, hget']
          rw [hcmp']
          cases d' with
          | none => rfl
          | some dd =>
            obtain ⟨d1, d2⟩ := dd
            dsimp only
            cases update_file_entry fi { E' with fast_hash := some d1 } with
            | error e => rfl
            | ok q =>
              obtain ⟨fi1, e1⟩ := q
              simp only [Bool.false_eq_true, if_false]
              cases update_file_entry fi1 { ne with fast_hash := some d2 } with
              | error e => rfl
              | ok q2 => obtain ⟨fi2, e2⟩ := q2; rfl
        · rw [hgetD] at hD4
          exact absurd rfl hD4.1
      | i :: j :: rest =>
        simp only [add_file, hne, hA, hbv, Option.isSome_some, not_true,
          Bool.false_eq_true, if_false, if_true, Option.getD_some]
        cases hash_file fs (ne.absolute_path fi.base_path) with
        | error e => rfl
        | ok hsh =>
          rcases hcase with hA' | hB' | hD3 | hD4
          · exact absurd hA' hA
          · simp [hB'] at hB
          · obtain ⟨i', E', d', hbk', -, -⟩ := hD3
            rw [hgetD] at hbk'
            simp at hbk'
          · refine try_candidates_fst fs fi _ (i :: j :: rest) ?_
            intro k hk E hg r hc
            refine hD4.2 k ?_ E hg r hc
            rw [hgetD]
            exact hk
    · simp only [add_file, hne, hA, hB, Bool.false_eq_true, if_false, not_false_iff,
        if_true]
      cases update_file_entry fi ne with
      | error e => rfl
      | ok q => obtain ⟨fi', e'⟩ := q; rfl

/-- Witness for C10: admitting `t1` into a fresh index (its size has no
bucket yet) leaves the filesystem untouched. -/
theorem c10_non_duplicate_admission_frame_witness :
    (add_file linkedFs (FilesIndex.new base) t1).1 = linkedFs :=
  c10_non_duplicate_admission_frame linkedFs (FilesIndex.new base) t1
    ⟨t1, none, 4, 0, 0, 0, 1⟩ (by decide) (Or.inr (Or.inl (by decide)))

/-- C7: refuted as stated.  The index `c7x` — one unhashed entry at slot 0,
one hashed entry at slot 1 — satisfies the audit; serializing it and loading
it back preserves the `entries` list exactly, but the reloaded index fails the
audit: `from_entries` groups `by_hash` over the iterator *filtered* to hashed
entries, so the hashed entry is registered under the filtered position 0
instead of its slot 1. -/
theorem c7_reload_breaks_audit :
    sanity_check c7x = true ∧
    c7saved.2 = Except.ok () ∧
    c7loaded.map (fun y => y.entries) = Except.ok c7x.entries ∧
    c7loaded.map (fun y => y.by_hash) = Except.ok [(77, [0])] ∧
    c7loaded.map sanity_check = Except.ok false := by
  refine ⟨by decide, by decide, by decide, by decide, by decide⟩

end Claims

end HardlinkDedup
